import Mathlib

/-!
Verification of the knowledge-graph import/query scripts.

Strings are modelled as `List Char`.  Python's `str.replace`, `str.strip`,
`int(...)`, `sorted(..., key=len, reverse=True)`, the regex-based RTF
extraction, the CSV dictionary-row reader, and the per-row import loops are
embedded as executable Lean functions below, translated from the source.
-/

/-- Python `str.replace` (leftmost, non-overlapping scan), fuel-based so it
is structurally recursive; one unit of fuel per haystack character. -/
def pyReplaceAux (needle repl : List Char) : Nat → List Char → List Char
  | 0, _ => []
  | _ + 1, [] => []
  | f + 1, c :: rest =>
    if needle.isPrefixOf (c :: rest) ∧ needle ≠ [] then
      repl ++ pyReplaceAux needle repl f (rest.drop (needle.length - 1))
    else
      c :: pyReplaceAux needle repl f rest

/-- Python `str.replace` on `List Char`.  An empty needle leaves the
haystack unchanged (the importer's needles are never empty). -/
def pyReplace (needle repl l : List Char) : List Char :=
  pyReplaceAux needle repl l.length l

/-- Substring occurrence test: `needle` occurs somewhere in the haystack. -/
def occursIn (needle : List Char) : List Char → Bool
  | [] => needle.isPrefixOf []
  | c :: rest => needle.isPrefixOf (c :: rest) || occursIn needle rest

/-- Python `sep.join(pieces)` for a list separator. -/
def joinSep (sep : List Char) : List (List Char) → List Char
  | [] => []
  | [x] => x
  | x :: y :: xs => x ++ sep ++ joinSep sep (y :: xs)

/-- Split a list on every occurrence of a separator character
(Python `s.split('\n')` / the naive comma split of a CSV line). -/
def splitOn (sep : Char) : List Char → List (List Char)
  | [] => [[]]
  | c :: rest =>
    if c = sep then [] :: splitOn sep rest
    else
      match splitOn sep rest with
      | [] => [[c]]
      | p :: ps => (c :: p) :: ps

/-- Whitespace characters stripped by Python `str.strip()` (the ASCII subset;
note U+FEFF is not whitespace in Python either). -/
def pyWS (c : Char) : Bool :=
  c = ' ' || c = '\t' || c = '\n' || c = '\r' || c = '\x0b' || c = '\x0c'

/-- Python `str.strip()`: drop whitespace from both ends. -/
def pyStrip (l : List Char) : List Char :=
  ((l.dropWhile pyWS).reverse.dropWhile pyWS).reverse

/-- Python `name.lstrip('\ufeff')`: drop all leading byte-order marks. -/
def lstripBOM (l : List Char) : List Char :=
  l.dropWhile (fun c => c = '\ufeff')

/-- Decimal digit character (`0`–`9`); used to model Python `str(int)`. -/
def digitChar : Nat → Char
  | 0 => '0' | 1 => '1' | 2 => '2' | 3 => '3' | 4 => '4'
  | 5 => '5' | 6 => '6' | 7 => '7' | 8 => '8' | 9 => '9'
  | _ => '*'

/-- Decimal digits of a natural number (fuel-based). -/
def natReprAux (fuel : Nat) (n : Nat) : List Char :=
  match fuel with
  | 0 => []
  | f + 1 =>
    if n < 10 then [digitChar n]
    else natReprAux f (n / 10) ++ [digitChar (n % 10)]

/-- Decimal text of a natural number, as Python `str` produces it. -/
def natRepr (n : Nat) : List Char := natReprAux (n + 1) n

/-- Python `str(int)`: optional leading minus sign, then decimal digits. -/
def intRepr : Int → List Char
  | .ofNat m => natRepr m
  | .negSucc m => '-' :: natRepr (m + 1)

/-- A parameter value as passed to `execute_cypher`: a Python string, an
`int`, or a list of strings. -/
inductive Value where
  | str (s : List Char)
  | int (n : Int)
  | list (elems : List (List Char))
deriving DecidableEq

/-- Python `str(value)` on the values above.  For a list it is the Python
`repr` form with single-quoted elements; faithful for elements free of
quotes and backslashes, which is all this development evaluates it on. -/
def pyStr : Value → List Char
  | .str s => s
  | .int n => intRepr n
  | .list es =>
      '[' :: (joinSep (", ".toList) (es.map (fun e => Char.ofNat 39 :: (e ++ [Char.ofNat 39])))) ++ [']']

/-- The escaping applied to string parameter values by the RTF importer:
`value.replace('"', '\\"').replace('\n', '\\n').replace('\r', '\\r')`. -/
def escTriple (s : List Char) : List Char :=
  pyReplace ['\r'] ['\\', 'r']
    (pyReplace ['\n'] ['\\', 'n']
      (pyReplace ['"'] ['\\', '"'] s))

/-- The literal text the RTF importer substitutes for a placeholder:
strings are escaped and wrapped in double quotes, everything else is
inserted as Python `str(value)`. -/
def rtfInsert : Value → List Char
  | .str s => '"' :: (escTriple s ++ ['"'])
  | v => pyStr v

/-- Stable insertion of a parameter into a length-descending list, modelling
Python `sorted(params.items(), key=lambda x: len(x[0]), reverse=True)`. -/
def insertByLen (p : List Char × Value) :
    List (List Char × Value) → List (List Char × Value)
  | [] => [p]
  | q :: qs => if q.1.length < p.1.length then p :: q :: qs else q :: insertByLen p qs

/-- Sort parameters by key length, longest first; left-to-right insertion
keeps the mapping order among equal-length keys, as Python's stable
`sorted` does. -/
def sortParams (ps : List (List Char × Value)) : List (List Char × Value) :=
  ps.foldl (fun acc p => insertByLen p acc) []

/-- The RTF importer's templater (`RTFKnowledgeGraphImporter.execute_cypher`):
sort keys by length descending, then `query.replace('$' + key, literal)`
for each entry in turn. -/
def rtfRender (params : List (List Char × Value)) (query : List Char) : List Char :=
  (sortParams params).foldl
    (fun q p => pyReplace ('$' :: p.1) (rtfInsert p.2) q) query

/-- One `key=value` item of the plain importer
(`KnowledgeGraphImporter.execute_cypher`): strings are quoted unescaped,
lists are comma-joined and quoted, other values are inserted bare. -/
def formatParam (k : List Char) : Value → List Char
  | .str s => k ++ ('=' :: '"' :: (s ++ ['"']))
  | .list es => k ++ ('=' :: '"' :: (joinSep [','] es ++ ['"']))
  | .int n => k ++ ('=' :: intRepr n)

/-- The plain importer's query assembly:
`f"CYPHER {' '.join(formatted_params)} {query}"`, or the query unchanged
when no parameters are given. -/
def plainRender (params : Option (List (List Char × Value))) (query : List Char) : List Char :=
  match params with
  | some ps =>
      ("CYPHER ".toList) ++ joinSep [' '] (ps.map (fun p => formatParam p.1 p.2))
        ++ (' ' :: query)
  | none => query

/-- Simultaneous longest-match-first substitution of the two placeholders
`$k1` and `$k2` (`k2` the longer), each by its own literal.  This follows
the specification's words for what a correct prefix-safe templater must
produce; it is compared against `rtfRender`, the definition from the source. -/
def simulSubstAux (k1 r1 k2 r2 : List Char) : Nat → List Char → List Char
  | 0, _ => []
  | _ + 1, [] => []
  | f + 1, c :: rest =>
    if ('$' :: k2).isPrefixOf (c :: rest) then
      r2 ++ simulSubstAux k1 r1 k2 r2 f (rest.drop k2.length)
    else if ('$' :: k1).isPrefixOf (c :: rest) then
      r1 ++ simulSubstAux k1 r1 k2 r2 f (rest.drop k1.length)
    else
      c :: simulSubstAux k1 r1 k2 r2 f rest

/-- Entry point of the simultaneous substitution above. -/
def simulSubstSpec (k1 r1 k2 r2 l : List Char) : List Char :=
  simulSubstAux k1 r1 k2 r2 l.length l

/-- The marker the extraction regex looks for: the literal run opener
matched by the pattern fragment of `extract_csv_from_rtf`. -/
def rtfMarker : List Char := "\\strokec2 ".toList

/-- Content following the first occurrence of the marker, if any. -/
def afterFirstMarker (marker : List Char) : List Char → Option (List Char)
  | [] => none
  | c :: rest =>
    if marker.isPrefixOf (c :: rest) then some ((c :: rest).drop marker.length)
    else afterFirstMarker marker rest

/-- Characters before the first close brace, when a close brace exists. -/
def beforeBrace : List Char → Option (List Char)
  | [] => none
  | c :: rest => if c = '\x7d' then some [] else (beforeBrace rest).map (fun p => c :: p)

/-- The capture of the regex on the document text: the content between the
first marker and the first close brace at least one character after it.
(If the first marker has no such close brace, no later marker occurrence
can complete the pattern either, so the whole search fails.) -/
def rtfCapture (content : List Char) : Option (List Char) :=
  match afterFirstMarker rtfMarker content with
  | none => none
  | some after =>
    match after with
    | [] => none
    | c :: rest => (beforeBrace rest).map (fun pre => c :: pre)

/-- `RTFKnowledgeGraphImporter.extract_csv_from_rtf` on the file's text:
take the first regex capture, rewrite every backslash to a newline, strip
all brace characters, then split into stripped non-blank lines. -/
def extract_csv_from_rtf (content : List Char) : List (List Char) :=
  match rtfCapture content with
  | none => []
  | some cap =>
    let unescaped := cap.map (fun ch => if ch = '\\' then '\n' else ch)
    let cleaned := unescaped.filter (fun ch => ch ≠ '\x7b' && ch ≠ '\x7d')
    ((splitOn '\n' (pyStrip cleaned)).map pyStrip).filter (fun l => l ≠ [])

/-- A parsed row: ordered field-name/value pairs. -/
abbrev Row := List (List Char × List Char)

/-- `csv.DictReader` over recovered lines, as the RTF importer uses it: the
first line is the header, each later non-blank line is zipped with the
header names.  Fields are split naively on commas (quoting is not
modelled; the claims are settled on quote-free payloads), and a Python
dict is modelled as the ordered association list of its insertions. -/
def dictRowsRaw (lines : List (List Char)) : List Row :=
  match lines with
  | [] => []
  | hdr :: rest =>
    (rest.filter (fun l => l ≠ [])).map
      (fun l => List.zip (splitOn ',' hdr) (splitOn ',' l))

/-- `csv.DictReader` as the plain importer uses it, with the BOM cleanup of
`import_business_segments`: each field name (hence each row key) has any
leading byte-order marks stripped. -/
def dictRowsClean (lines : List (List Char)) : List Row :=
  match lines with
  | [] => []
  | hdr :: rest =>
    (rest.filter (fun l => l ≠ [])).map
      (fun l => List.zip ((splitOn ',' hdr).map lstripBOM) (splitOn ',' l))

/-- The `utf-8-sig` decode of the plain importer: one leading byte-order
mark, when present, is dropped from the content. -/
def stripBOM1 (content : List Char) : List Char :=
  match content with
  | bom :: rest => if bom = '\ufeff' then rest else bom :: rest
  | [] => []

/-- The plain importer's row reading: decode with `utf-8-sig`, split into
lines, parse with the dictionary reader, cleaning BOMs from names/keys. -/
def plainParse (content : List Char) : List Row :=
  dictRowsClean (splitOn '\n' (stripBOM1 content))

/-- The RTF importer's row reading: recover lines from the container, then
parse with the dictionary reader (no BOM cleanup on this path). -/
def rtfParse (content : List Char) : List Row :=
  dictRowsRaw (extract_csv_from_rtf content)

/-- Modelled from the spec: the rich-text container's escaping rules of
§4.1, for which no wrapping code exists under src/ — line breaks are
escaped as literal backslashes and the payload sits in the escaped literal
run opened by the marker and closed by a brace. -/
def rtfWrap (payload : List Char) : List Char :=
  rtfMarker ++ (payload.map (fun ch => if ch = '\n' then '\\' else ch)) ++ ['\x7d']

/-- Numeric value of a digit string (most significant first). -/
def digitsVal (ds : List Char) : Nat :=
  ds.foldl (fun acc c => acc * 10 + (c.toNat - 48)) 0

/-- A non-empty all-digit string, or `none`. -/
def parseDigits (ds : List Char) : Option Nat :=
  if ds ≠ [] ∧ ds.all Char.isDigit then some (digitsVal ds) else none

/-- Python `int(text)`: strip whitespace, optional sign, decimal digits;
`none` models the `ValueError` raised on anything else.  Deviation: Python
also accepts underscore-grouped digits (`1_000`) and non-ASCII decimal
digits; those are not modelled here, and the claims settled below evaluate
`pyInt` only on plain ASCII digit strings or on genuinely non-numeric
text, where the two agree. -/
def pyInt (s : List Char) : Option Int :=
  match pyStrip s with
  | '+' :: ds => (parseDigits ds).map Int.ofNat
  | '-' :: ds => (parseDigits ds).map (fun n => -(n : Int))
  | ds => (parseDigits ds).map Int.ofNat

/-- The importer's running state for the USED_IN table: the counter and
error list of `self.stats`, plus the trace of queries submitted to the
store. -/
structure Stats where
  used_in : Nat := 0
  errors : List (List Char) := []
  submitted : List (List Char) := []
deriving DecidableEq

/-- One error-list entry of the RTF importer:
the first 100 characters of the (rendered) query plus the message. -/
def errEntry (q e : List Char) : List Char :=
  ("Query error: ".toList) ++ q.take 100 ++ (" ... - ".toList)
    ++ ("Query failed: ".toList) ++ e

/-- `RTFKnowledgeGraphImporter.execute_cypher`: render the template with the
parameters, submit it; an execution failure is caught, recorded in the
error list, and turned into an empty result.  The external store is the
parameter `ex`; `submitted` traces the calls made to it. -/
def executeCypherRTF (ex : List Char → Except (List Char) (List (List Char)))
    (st : Stats) (query : List Char) (params : Option (List (List Char × Value))) :
    Stats × List (List Char) :=
  let q := match params with
    | some ps => rtfRender ps query
    | none => query
  match ex q with
  | .ok r => ({ st with submitted := st.submitted ++ [q] }, r)
  | .error e => ({ st with submitted := st.submitted ++ [q],
                           errors := st.errors ++ [errEntry q e] }, [])

/-- The USED_IN mutation template of `import_task_workflow_relationships`
(the leading indentation of the Python triple-quoted string is elided). -/
def usedInTemplate : List Char :=
  ("MATCH (tt:TASK_TEMPLATE \x7bnode_id: $source_node_id\x7d)\nMATCH (wt:WORKFLOW_TEMPLATE \x7bworkflow_id: $target_node_id\x7d)\nCREATE (tt)-[r:USED_IN \x7b\nrelationship_type: $relationship_type,\nsequence_position: $sequence_position,\npriority_score: $priority_score,\nnotification_trigger: $notification_trigger,\nvisibility_roles: $visibility_roles,\ncreated_at: $created_at\n\x7d]->(wt)").toList

/-- The parameter dictionary built for one USED_IN row (the `params = ...`
literal in the loop body): string fields straight from the row,
`priority_score` through `int(...)`, plus the generation timestamp.
`none` models the uncaught KeyError/ValueError during its construction. -/
def buildUsedInParams (now : List Char) (row : Row) : Option (List (List Char × Value)) :=
  match row.lookup ("source_node_id".toList), row.lookup ("target_node_id".toList),
        row.lookup ("relationship_type".toList), row.lookup ("sequence_position".toList),
        row.lookup ("priority_score".toList), row.lookup ("notification_trigger".toList),
        row.lookup ("visibility_roles".toList) with
  | some s, some t, some rt, some sp, some pr, some nt, some vr =>
    match pyInt pr with
    | some n => some
        [(("source_node_id".toList), Value.str s), (("target_node_id".toList), Value.str t),
         (("relationship_type".toList), Value.str rt), (("sequence_position".toList), Value.str sp),
         (("priority_score".toList), Value.int n), (("notification_trigger".toList), Value.str nt),
         (("visibility_roles".toList), Value.str vr), (("created_at".toList), Value.str now)]
    | none => none
  | _, _, _, _, _, _, _ => none

/-- The row loop of `import_task_workflow_relationships` (RTF variant): per
row, build the parameter dictionary — an uncaught failure there aborts the
whole table, reported as `true` in the second component — then submit via
`execute_cypher` and increment the counter unconditionally. -/
def importUsedIn (ex : List Char → Except (List Char) (List (List Char)))
    (now : List Char) : List Row → Stats → Stats × Bool
  | [], st => (st, false)
  | row :: rest, st =>
    match buildUsedInParams now row with
    | none => (st, true)
    | some ps =>
      let step := executeCypherRTF ex st usedInTemplate (some ps)
      importUsedIn ex now rest { step.1 with used_in := step.1.used_in + 1 }

/-- A raw reply value from the store: a string or a nested array. -/
inductive RV where
  | s (v : List Char)
  | arr (l : List RV)

/-- Python iteration/indexing over a reply element: arrays yield their
elements, strings yield their characters as one-character strings. -/
def asList : RV → List RV
  | .arr l => l
  | .s v => v.map (fun c => RV.s [c])

/-- The inner dictionary of `KnowledgeGraphQuery.query` for one result row:
`for i, header in enumerate(headers): if i < len(row): d[header] = row[i]`,
a Python dict modelled as the ordered association list of its insertions. -/
def rowDict (headers : List RV) (row : RV) : List (RV × RV) :=
  headers.enum.filterMap (fun p =>
    ((asList row).get? p.1).map (fun v => (p.2, v)))

/-- `KnowledgeGraphQuery.query`: any raised error yields `[]`; a result
with fewer than two elements yields `[]`; otherwise one dictionary per row
of `result[1]`, keyed by the entries of `result[0]`, with
`headers[i] -> row[i]` present exactly when `i < len(row)`. -/
def kgQuery (raw : Except (List Char) (List RV)) : List (List (RV × RV)) :=
  match raw with
  | .error _ => []
  | .ok result =>
    if result.length < 2 then []
    else
      (asList (result.getD 1 (RV.arr []))).map
        (rowDict (asList (result.getD 0 (RV.arr []))))

/-- Identifier characters of a placeholder name: letters and underscore. -/
def isIdChar (c : Char) : Bool := c.isAlpha || c == '_'

/-- Scan check that every double quote is immediately preceded by a
backslash; `prev` is the character before the current position. -/
def quotesEscAux (prev : Char) : List Char → Bool
  | [] => true
  | c :: rest => (!(c == '"') || (prev == '\\')) && quotesEscAux c rest

/-- Every double quote in the list is immediately preceded by a backslash
(in particular a leading quote fails the check). -/
def quotesEscaped (l : List Char) : Bool := quotesEscAux 'x' l

/-- The query submitted for one USED_IN row, when its parameters build. -/
def rowQuery (now : List Char) (row : Row) : Option (List Char) :=
  (buildUsedInParams now row).map (fun ps => rtfRender ps usedInTemplate)

/-- A USED_IN relationship row fixture with the given priority-score text. -/
def usedInRow (pr : List Char) : Row :=
  [(("source_node_id".toList), ("T1".toList)), (("target_node_id".toList), ("W1".toList)),
   (("relationship_type".toList), ("USED_IN".toList)),
   (("sequence_position".toList), ("1".toList)),
   (("priority_score".toList), pr),
   (("notification_trigger".toList), ("none".toList)),
   (("visibility_roles".toList), ("all".toList))]

/-- Character-wise view of the RTF importer's escaping: what one value
character contributes to the escaped text (quote, newline and carriage
return gain a backslash; every other character — a backslash included —
passes through untouched). -/
def escChar (c : Char) : List Char :=
  if c = '"' then ['\\', '"']
  else if c = '\n' then ['\\', 'n']
  else if c = '\r' then ['\\', 'r']
  else [c]

/-- Concatenation of the per-character escapes; proved equal to
`escTriple` below. -/
def escAll : List Char → List Char
  | [] => []
  | c :: s => escChar c ++ escAll s

/-- String-literal lexing of the query language, following the
specification's well-formedness words for claim C1: after an opening
double quote, a backslash escapes the character after it and an unescaped
double quote closes the literal, returning the text that follows; `none`
means the literal never terminates.  A value "renders as a single
well-formed literal that cannot break out" exactly when scanning its
inserted text plus the closing quote returns the untouched remainder of
the query. -/
def litScan : List Char → Option (List Char)
  | [] => none
  | c :: rest =>
    if c = '"' then some rest
    else if c = '\\' then
      match rest with
      | [] => none
      | _ :: rest2 => litScan rest2
    else litScan rest

theorem pyReplaceAux_fuel (needle repl : List Char) :
    ∀ (f g : Nat) (l : List Char), l.length ≤ f → l.length ≤ g →
      pyReplaceAux needle repl f l = pyReplaceAux needle repl g l := by
  intro f
  induction f with
  | zero =>
    intro g l hf _
    have hl : l = [] := List.length_eq_zero.mp (Nat.le_zero.mp hf)
    subst hl
    cases g <;> rfl
  | succ f ih =>
    intro g l hf hg
    match g, l with
    | 0, l =>
      have hl : l = [] := List.length_eq_zero.mp (Nat.le_zero.mp hg)
      subst hl
      rfl
    | g + 1, [] => rfl
    | g + 1, c :: rest =>
      simp only [List.length_cons] at hf hg
      simp only [pyReplaceAux]
      split
      · have hd : (rest.drop (needle.length - 1)).length ≤ rest.length := by
          simp only [List.length_drop]
          omega
        rw [ih g _ (by omega) (by omega)]
      · rw [ih g rest (by omega) (by omega)]

theorem pyReplace_cons (needle repl : List Char) (c : Char) (rest : List Char) :
    pyReplace needle repl (c :: rest) =
      if needle.isPrefixOf (c :: rest) ∧ needle ≠ [] then
        repl ++ pyReplace needle repl (rest.drop (needle.length - 1))
      else
        c :: pyReplace needle repl rest := by
  show pyReplaceAux needle repl (rest.length + 1) (c :: rest) = _
  simp only [pyReplaceAux]
  split
  · congr 1
    exact pyReplaceAux_fuel needle repl rest.length _ _
      (by simp only [List.length_drop]; omega) (le_refl _)
  · rfl

theorem pyReplace_single_cons (a : Char) (repl : List Char) (c : Char) (rest : List Char) :
    pyReplace [a] repl (c :: rest) =
      if c = a then repl ++ pyReplace [a] repl rest else c :: pyReplace [a] repl rest := by
  rw [pyReplace_cons]
  by_cases h : c = a
  · subst h
    simp [List.isPrefixOf]
  · simp only [List.isPrefixOf, List.length_cons]
    have : (a == c) = false := by
      simp [beq_iff_eq]
      exact fun hh => h hh.symm
    simp [this, h]

theorem occursIn_cons (needle : List Char) (c : Char) (rest : List Char) :
    occursIn needle (c :: rest)
      = (needle.isPrefixOf (c :: rest) || occursIn needle rest) := rfl

theorem occursIn_drop (needle l : List Char) (n : Nat)
    (h : occursIn needle l = false) : occursIn needle (l.drop n) = false := by
  induction l generalizing n with
  | nil => simpa using h
  | cons c rest ih =>
    cases n with
    | zero => exact h
    | succ n =>
      rw [occursIn_cons, Bool.or_eq_false_iff] at h
      exact ih n h.2

theorem occursIn_append_false (hc : Char) (ktl xs ys : List Char)
    (h1 : hc ∉ xs) (h2 : occursIn (hc :: ktl) ys = false) :
    occursIn (hc :: ktl) (xs ++ ys) = false := by
  induction xs with
  | nil => simpa using h2
  | cons x xs ih =>
    have hx : (hc == x) = false := by
      simp only [beq_eq_false_iff_ne, ne_eq]
      intro e
      exact h1 (by simp [e])
    have hxs : hc ∉ xs := fun m => h1 (List.mem_cons_of_mem _ m)
    rw [List.cons_append, occursIn_cons, Bool.or_eq_false_iff]
    constructor
    · simp [List.isPrefixOf, hx]
    · exact ih hxs

theorem pyReplace_append_left (h : Char) (ntl repl xs ys : List Char) (hx : h ∉ xs) :
    pyReplace (h :: ntl) repl (xs ++ ys) = xs ++ pyReplace (h :: ntl) repl ys := by
  induction xs with
  | nil => rfl
  | cons x xs ih =>
    have hhx : (h == x) = false := by
      simp only [beq_eq_false_iff_ne, ne_eq]
      intro e
      exact hx (by simp [e])
    have hxs : h ∉ xs := fun m => hx (List.mem_cons_of_mem _ m)
    rw [List.cons_append, pyReplace_cons, if_neg, ih hxs]
    · rfl
    · intro hcon
      have := hcon.1
      simp [List.isPrefixOf, hhx] at this

theorem mem_pyReplaceAux (needle repl : List Char) :
    ∀ (f : Nat) (l : List Char) (c : Char),
      c ∈ pyReplaceAux needle repl f l → c ∈ l ∨ c ∈ repl := by
  intro f
  induction f with
  | zero =>
    intro l c hm
    simp [pyReplaceAux] at hm
  | succ f ih =>
    intro l c hm
    match l with
    | [] => simp [pyReplaceAux] at hm
    | x :: rest =>
      simp only [pyReplaceAux] at hm
      split at hm
      · rcases List.mem_append.mp hm with hm | hm
        · exact Or.inr hm
        · rcases ih _ c hm with hm | hm
          · exact Or.inl (List.mem_cons_of_mem _ (List.drop_subset _ _ hm))
          · exact Or.inr hm
      · rcases List.mem_cons.mp hm with hm | hm
        · exact Or.inl (by simp [hm])
        · rcases ih rest c hm with hm | hm
          · exact Or.inl (List.mem_cons_of_mem _ hm)
          · exact Or.inr hm

theorem mem_pyReplace (needle repl l : List Char) (c : Char)
    (hm : c ∈ pyReplace needle repl l) : c ∈ l ∨ c ∈ repl :=
  mem_pyReplaceAux needle repl l.length l c hm

theorem not_mem_pyReplace_single (a : Char) (repl l : List Char) (hr : a ∉ repl) :
    a ∉ pyReplace [a] repl l := by
  induction l with
  | nil => simp [pyReplace, pyReplaceAux]
  | cons c rest ih =>
    rw [pyReplace_single_cons]
    by_cases h : c = a
    · rw [h, if_pos rfl]
      intro hm
      rcases List.mem_append.mp hm with hm | hm
      · exact hr hm
      · exact ih hm
    · rw [if_neg h]
      intro hm
      rcases List.mem_cons.mp hm with hm | hm
      · exact h hm.symm
      · exact ih hm

theorem isPrefixOf_pyReplace_reflect (p : Char → Bool) (needle : List Char)
    (hh : Char) (rtl : List Char) (hph : p hh = false) :
    ∀ (rest k : List Char), (∀ c ∈ k, p c = true) →
      k.isPrefixOf (pyReplace needle (hh :: rtl) rest) = true →
      k.isPrefixOf rest = true := by
  intro rest
  induction rest with
  | nil =>
    intro k hk hpre
    cases k with
    | nil => rfl
    | cons a as => simp [pyReplace, pyReplaceAux, List.isPrefixOf] at hpre
  | cons c rest ih =>
    intro k hk hpre
    rw [pyReplace_cons] at hpre
    split at hpre
    · cases k with
      | nil => rfl
      | cons a as =>
        exfalso
        rw [List.cons_append, List.isPrefixOf, Bool.and_eq_true] at hpre
        have ha : a = hh := by simpa [beq_iff_eq] using hpre.1
        have hpa := hk a (by simp)
        rw [ha, hph] at hpa
        exact Bool.false_ne_true hpa
    · cases k with
      | nil => rfl
      | cons a as =>
        rw [List.isPrefixOf, Bool.and_eq_true] at hpre ⊢
        exact ⟨hpre.1, ih as (fun c hc => hk c (List.mem_cons_of_mem _ hc)) hpre.2⟩

theorem occursIn_pyReplace_self (p : Char → Bool) (hc : Char) (ktl : List Char)
    (hr : Char) (rtl : List Char)
    (hck : ∀ c ∈ ktl, p c = true) (hhr : p hr = false) (hcr : hc ∉ hr :: rtl) :
    ∀ (n : Nat) (l : List Char), l.length ≤ n →
      occursIn (hc :: ktl) (pyReplace (hc :: ktl) (hr :: rtl) l) = false := by
  intro n
  induction n with
  | zero =>
    intro l hl
    have : l = [] := List.length_eq_zero.mp (Nat.le_zero.mp hl)
    subst this
    simp [pyReplace, pyReplaceAux, occursIn, List.isPrefixOf]
  | succ n ih =>
    intro l hl
    match l with
    | [] => simp [pyReplace, pyReplaceAux, occursIn, List.isPrefixOf]
    | c :: rest =>
      simp only [List.length_cons] at hl
      rw [pyReplace_cons]
      split
      · exact occursIn_append_false hc ktl _ _ hcr
          (ih _ (by simp only [List.length_drop]; omega))
      · rename_i hcond
        rw [occursIn_cons, Bool.or_eq_false_iff]
        constructor
        · by_contra hpre
          rw [Bool.not_eq_false] at hpre
          rw [List.isPrefixOf, Bool.and_eq_true] at hpre
          have hk' := isPrefixOf_pyReplace_reflect p (hc :: ktl) hr rtl hhr rest ktl hck hpre.2
          apply hcond
          refine ⟨?_, by simp⟩
          rw [List.isPrefixOf, Bool.and_eq_true]
          exact ⟨hpre.1, hk'⟩
        · exact ih rest (by omega)

theorem occursIn_pyReplace_other (p : Char → Bool) (hc : Char) (ktl : List Char)
    (nd2 : List Char) (hr2 : Char) (rtl2 : List Char)
    (hck : ∀ c ∈ ktl, p c = true) (hhr2 : p hr2 = false) (hcr2 : hc ∉ hr2 :: rtl2) :
    ∀ (n : Nat) (l : List Char), l.length ≤ n →
      occursIn (hc :: ktl) l = false →
      occursIn (hc :: ktl) (pyReplace nd2 (hr2 :: rtl2) l) = false := by
  intro n
  induction n with
  | zero =>
    intro l hl _
    have : l = [] := List.length_eq_zero.mp (Nat.le_zero.mp hl)
    subst this
    simp [pyReplace, pyReplaceAux, occursIn, List.isPrefixOf]
  | succ n ih =>
    intro l hl h0
    match l with
    | [] => simp [pyReplace, pyReplaceAux, occursIn, List.isPrefixOf]
    | c :: rest =>
      simp only [List.length_cons] at hl
      rw [occursIn_cons, Bool.or_eq_false_iff] at h0
      rw [pyReplace_cons]
      split
      · exact occursIn_append_false hc ktl _ _ hcr2
          (ih _ (by simp only [List.length_drop]; omega) (occursIn_drop _ _ _ h0.2))
      · rw [occursIn_cons, Bool.or_eq_false_iff]
        constructor
        · by_contra hpre
          rw [Bool.not_eq_false] at hpre
          rw [List.isPrefixOf, Bool.and_eq_true] at hpre
          have hk' := isPrefixOf_pyReplace_reflect p nd2 hr2 rtl2 hhr2 rest ktl hck hpre.2
          have : (hc :: ktl).isPrefixOf (c :: rest) = true := by
            rw [List.isPrefixOf, Bool.and_eq_true]
            exact ⟨hpre.1, hk'⟩
          exact absurd (this.symm.trans h0.1) (by decide)
        · exact ih rest (by omega) h0.2

theorem digitChar_props (d : Nat) (hd : d < 10) :
    isIdChar (digitChar d) = false ∧ digitChar d ≠ '$' ∧ digitChar d ≠ '"' := by
  interval_cases d <;> exact ⟨by decide, by decide, by decide⟩

theorem mem_natReprAux (f n : Nat) (c : Char) (h : c ∈ natReprAux f n) :
    ∃ d, d < 10 ∧ c = digitChar d := by
  induction f generalizing n with
  | zero => simp [natReprAux] at h
  | succ f ih =>
    simp only [natReprAux] at h
    split at h
    · rename_i h10
      exact ⟨n, h10, List.mem_singleton.mp h⟩
    · rcases List.mem_append.mp h with h | h
      · exact ih _ h
      · exact ⟨n % 10, Nat.mod_lt _ (by omega), List.mem_singleton.mp h⟩

theorem natRepr_ne_nil (n : Nat) : natRepr n ≠ [] := by
  unfold natRepr natReprAux
  split <;> simp

theorem mem_intRepr (i : Int) (c : Char) (h : c ∈ intRepr i) :
    c = '-' ∨ ∃ d, d < 10 ∧ c = digitChar d := by
  cases i with
  | ofNat m => exact Or.inr (mem_natReprAux _ _ _ h)
  | negSucc m =>
    rcases List.mem_cons.mp h with h | h
    · exact Or.inl h
    · exact Or.inr (mem_natReprAux _ _ _ h)

theorem quote_not_mem_intRepr (n : Int) : '"' ∉ intRepr n := by
  intro h
  rcases mem_intRepr n _ h with h | ⟨d, hd, hc⟩
  · exact absurd h (by decide)
  · exact absurd hc.symm (digitChar_props d hd).2.2

theorem escTriple_no_lf (s : List Char) : '\n' ∉ escTriple s := by
  intro h
  unfold escTriple at h
  rcases mem_pyReplace _ _ _ _ h with h | h
  · exact not_mem_pyReplace_single '\n' _ _ (by decide) h
  · exact absurd h (by decide)

theorem escTriple_no_cr (s : List Char) : '\r' ∉ escTriple s := by
  unfold escTriple
  exact not_mem_pyReplace_single '\r' _ _ (by decide)

theorem not_mem_escTriple (c : Char) (s : List Char) (hc1 : c ∉ s)
    (h2 : c ≠ '\\') (h3 : c ≠ 'n') (h4 : c ≠ 'r') (h5 : c ≠ '"') :
    c ∉ escTriple s := by
  intro h
  unfold escTriple at h
  rcases mem_pyReplace _ _ _ _ h with h | h
  · rcases mem_pyReplace _ _ _ _ h with h | h
    · rcases mem_pyReplace _ _ _ _ h with h | h
      · exact hc1 h
      · rcases List.mem_cons.mp h with h | h
        · exact h2 h
        · exact h5 (List.mem_singleton.mp h)
    · rcases List.mem_cons.mp h with h | h
      · exact h2 h
      · exact h3 (List.mem_singleton.mp h)
  · rcases List.mem_cons.mp h with h | h
    · exact h2 h
    · exact h4 (List.mem_singleton.mp h)

theorem quotesEscAux_prev_irrel (s : List Char) (p q : Char)
    (hp : p ≠ '\\') (hq : q ≠ '\\') : quotesEscAux p s = quotesEscAux q s := by
  cases s with
  | nil => rfl
  | cons c rest =>
    simp only [quotesEscAux]
    have hp' : (p == '\\') = false := by
      simp only [beq_eq_false_iff_ne, ne_eq]
      exact hp
    have hq' : (q == '\\') = false := by
      simp only [beq_eq_false_iff_ne, ne_eq]
      exact hq
    rw [hp', hq']

theorem quotesEscAux_first (s : List Char) :
    ∀ prev, quotesEscAux prev (pyReplace ['"'] ['\\', '"'] s) = true := by
  induction s with
  | nil => intro prev; rfl
  | cons c rest ih =>
    intro prev
    rw [pyReplace_single_cons]
    by_cases h : c = '"'
    · rw [if_pos h]
      simp only [List.cons_append, List.nil_append, quotesEscAux]
      rw [show (('\\' : Char) == '"') = false from by decide]
      rw [show (('"' : Char) == '"') = true from by decide]
      rw [show (('\\' : Char) == '\\') = true from by decide]
      simp only [Bool.not_false, Bool.not_true, Bool.true_or, Bool.false_or,
        Bool.true_and]
      exact ih '"'
    · rw [if_neg h]
      simp only [quotesEscAux]
      have hc : (c == '"') = false := by
        simp only [beq_eq_false_iff_ne, ne_eq]
        exact h
      rw [hc]
      simp only [Bool.not_false, Bool.true_or, Bool.true_and]
      exact ih c

theorem quotesEscAux_preserve (a b : Char) (_ha1 : a ≠ '"') (ha2 : a ≠ '\\')
    (hb1 : b ≠ '"') (hb2 : b ≠ '\\') (s : List Char) :
    ∀ prev, quotesEscAux prev s = true →
      quotesEscAux prev (pyReplace [a] ['\\', b] s) = true := by
  induction s with
  | nil => intro prev h; exact h
  | cons c rest ih =>
    intro prev h
    simp only [quotesEscAux, Bool.and_eq_true] at h
    rw [pyReplace_single_cons]
    by_cases hca : c = a
    · rw [if_pos hca]
      simp only [List.cons_append, List.nil_append, quotesEscAux]
      rw [show (('\\' : Char) == '"') = false from by decide]
      have hb' : (b == '"') = false := by
        simp only [beq_eq_false_iff_ne, ne_eq]
        exact hb1
      rw [hb', show (('\\' : Char) == '\\') = true from by decide]
      simp only [Bool.not_false, Bool.true_or, Bool.or_true, Bool.true_and]
      apply ih b
      rw [quotesEscAux_prev_irrel rest b c hb2 (by rw [hca]; exact ha2)]
      exact h.2
    · rw [if_neg hca]
      simp only [quotesEscAux, Bool.and_eq_true]
      exact ⟨h.1, ih c h.2⟩

theorem quotesEscaped_escTriple (s : List Char) : quotesEscaped (escTriple s) = true := by
  unfold quotesEscaped escTriple
  apply quotesEscAux_preserve '\r' 'r' (by decide) (by decide) (by decide) (by decide)
  apply quotesEscAux_preserve '\n' 'n' (by decide) (by decide) (by decide) (by decide)
  exact quotesEscAux_first s 'x'

theorem rtfInsert_head_not_id (v : Value) :
    ∃ hd tl, rtfInsert v = hd :: tl ∧ isIdChar hd = false := by
  cases v with
  | str s => exact ⟨'"', _, rfl, by decide⟩
  | int n =>
    cases n with
    | ofNat m =>
      obtain ⟨hd, tl, heq⟩ : ∃ hd tl, natRepr m = hd :: tl := by
        cases hmm : natRepr m with
        | nil => exact absurd hmm (natRepr_ne_nil m)
        | cons a b => exact ⟨a, b, rfl⟩
      have hmem : hd ∈ natRepr m := by rw [heq]; simp
      obtain ⟨d, hd10, hdc⟩ := mem_natReprAux _ _ _ hmem
      refine ⟨hd, tl, ?_, ?_⟩
      · show intRepr (Int.ofNat m) = hd :: tl
        simpa [intRepr] using heq
      · rw [hdc]
        exact (digitChar_props d hd10).1
    | negSucc m => exact ⟨'-', _, rfl, by decide⟩
  | list es => exact ⟨'[', _, rfl, by decide⟩

theorem mem_insertByLen (p q : List Char × Value) (l : List (List Char × Value)) :
    q ∈ insertByLen p l ↔ q = p ∨ q ∈ l := by
  induction l with
  | nil => simp [insertByLen]
  | cons r rs ih =>
    simp only [insertByLen]
    split
    · simp [or_comm, or_assoc, or_left_comm]
    · simp only [List.mem_cons, ih]
      tauto

theorem mem_foldl_insertByLen (q : List Char × Value) :
    ∀ (ps acc : List (List Char × Value)),
      q ∈ ps.foldl (fun a p => insertByLen p a) acc ↔ q ∈ ps ∨ q ∈ acc := by
  intro ps
  induction ps with
  | nil =>
    intro acc
    simp
  | cons r rs ih =>
    intro acc
    simp only [List.foldl_cons]
    rw [ih (insertByLen r acc)]
    rw [mem_insertByLen]
    simp only [List.mem_cons]
    tauto

theorem mem_sortParams (q : List Char × Value) (ps : List (List Char × Value)) :
    q ∈ sortParams ps ↔ q ∈ ps := by
  unfold sortParams
  rw [mem_foldl_insertByLen]
  simp

theorem occursIn_foldl_preserve (hc : Char) (ktl : List Char)
    (hck : ∀ c ∈ ktl, isIdChar c = true)
    (L : List (List Char × Value))
    (hL : ∀ pr ∈ L, hc ∉ rtfInsert pr.2) :
    ∀ q : List Char, occursIn (hc :: ktl) q = false →
      occursIn (hc :: ktl)
        (L.foldl (fun acc p => pyReplace ('$' :: p.1) (rtfInsert p.2) acc) q) = false := by
  induction L with
  | nil => intro q hq; exact hq
  | cons e L ih =>
    intro q hq
    simp only [List.foldl_cons]
    apply ih (fun pr hpr => hL pr (List.mem_cons_of_mem _ hpr))
    obtain ⟨hd, tl, heq, hhd⟩ := rtfInsert_head_not_id e.2
    rw [heq]
    exact occursIn_pyReplace_other (fun c => isIdChar c) hc ktl ('$' :: e.1) hd tl
      hck (by simpa using hhd) (by rw [← heq]; exact hL e (by simp)) q.length q (le_refl _) hq

theorem occursIn_foldl_self (L : List (List Char × Value))
    (hkeys : ∀ pr ∈ L, ∀ c ∈ pr.1, isIdChar c = true)
    (hvals : ∀ pr ∈ L, '$' ∉ rtfInsert pr.2) :
    ∀ q : List Char, ∀ pr ∈ L,
      occursIn ('$' :: pr.1)
        (L.foldl (fun acc p => pyReplace ('$' :: p.1) (rtfInsert p.2) acc) q) = false := by
  induction L with
  | nil =>
    intro q pr h
    simp at h
  | cons e L ih =>
    intro q pr hpr
    simp only [List.foldl_cons]
    rcases List.mem_cons.mp hpr with rfl | hpr
    · apply occursIn_foldl_preserve '$' pr.1 (hkeys pr (by simp)) L
        (fun r hr => hvals r (List.mem_cons_of_mem _ hr))
      obtain ⟨hd, tl, heq, hhd⟩ := rtfInsert_head_not_id pr.2
      rw [heq]
      exact occursIn_pyReplace_self (fun c => isIdChar c) '$' pr.1 hd tl
        (hkeys pr (by simp)) hhd (by rw [← heq]; exact hvals pr (by simp))
        q.length q (le_refl _)
    · exact ih (fun r hr => hkeys r (List.mem_cons_of_mem _ hr))
        (fun r hr => hvals r (List.mem_cons_of_mem _ hr)) _ pr hpr

theorem pyReplace_no_occurrence (nd r l : List Char)
    (h : occursIn nd l = false) : pyReplace nd r l = l := by
  induction l with
  | nil => rfl
  | cons c rest ih =>
    rw [occursIn_cons, Bool.or_eq_false_iff] at h
    rw [pyReplace_cons, if_neg, ih h.2]
    intro hcon
    rw [hcon.1] at h
    exact absurd h.1 (by decide)

theorem simulSubstAux_fuel (k1 r1 k2 r2 : List Char) :
    ∀ (f g : Nat) (l : List Char), l.length ≤ f → l.length ≤ g →
      simulSubstAux k1 r1 k2 r2 f l = simulSubstAux k1 r1 k2 r2 g l := by
  intro f
  induction f with
  | zero =>
    intro g l hf _
    have hl : l = [] := List.length_eq_zero.mp (Nat.le_zero.mp hf)
    subst hl
    cases g <;> rfl
  | succ f ih =>
    intro g l hf hg
    match g, l with
    | 0, l =>
      have hl : l = [] := List.length_eq_zero.mp (Nat.le_zero.mp hg)
      subst hl
      rfl
    | g + 1, [] => rfl
    | g + 1, c :: rest =>
      simp only [List.length_cons] at hf hg
      simp only [simulSubstAux]
      split
      · rw [ih g _ (by simp only [List.length_drop]; omega)
          (by simp only [List.length_drop]; omega)]
      · split
        · rw [ih g _ (by simp only [List.length_drop]; omega)
            (by simp only [List.length_drop]; omega)]
        · rw [ih g rest (by omega) (by omega)]

theorem simulSubstSpec_cons (k1 r1 k2 r2 : List Char) (c : Char) (rest : List Char) :
    simulSubstSpec k1 r1 k2 r2 (c :: rest) =
      if ('$' :: k2).isPrefixOf (c :: rest) then
        r2 ++ simulSubstSpec k1 r1 k2 r2 (rest.drop k2.length)
      else if ('$' :: k1).isPrefixOf (c :: rest) then
        r1 ++ simulSubstSpec k1 r1 k2 r2 (rest.drop k1.length)
      else
        c :: simulSubstSpec k1 r1 k2 r2 rest := by
  show simulSubstAux k1 r1 k2 r2 (rest.length + 1) (c :: rest) = _
  simp only [simulSubstAux]
  split
  · congr 1
    exact simulSubstAux_fuel k1 r1 k2 r2 rest.length _ _
      (by simp only [List.length_drop]; omega) (le_refl _)
  · split
    · congr 1
      exact simulSubstAux_fuel k1 r1 k2 r2 rest.length _ _
        (by simp only [List.length_drop]; omega) (le_refl _)
    · rfl

theorem cons_isPrefixOf_decomp {h c : Char} {k rest : List Char}
    (hp : (h :: k).isPrefixOf (c :: rest) = true) :
    c = h ∧ ∃ r', rest = k ++ r' := by
  rw [ List.isPrefixOf_iff_prefix] at hp
  obtain ⟨z, hz⟩ := hp
  rw [List.cons_append] at hz
  injection hz with hh ht
  exact ⟨hh.symm, z, ht.symm⟩

theorem cons_isPrefixOf_append (h : Char) (k y : List Char) :
    (h :: k).isPrefixOf (h :: (k ++ y)) = true := by
  rw [ List.isPrefixOf_iff_prefix]
  exact ⟨y, by simp⟩

theorem seq_eq_simul (k1 ext i1 : List Char) (hd2 : Char) (tl2 : List Char)
    (hk1 : ∀ c ∈ k1, isIdChar c = true)
    (hhd2 : isIdChar hd2 = false)
    (hdol2 : '$' ∉ hd2 :: tl2) :
    ∀ (n : Nat) (t : List Char), t.length ≤ n →
      pyReplace ('$' :: k1) i1 (pyReplace ('$' :: (k1 ++ ext)) (hd2 :: tl2) t)
        = simulSubstSpec k1 i1 (k1 ++ ext) (hd2 :: tl2) t := by
  have hdk1 : '$' ∉ k1 := by
    intro hm
    have hid := hk1 _ hm
    rw [show isIdChar '$' = false from by decide] at hid
    exact absurd hid (by decide)
  intro n
  induction n with
  | zero =>
    intro t ht
    have hni : t = [] := List.length_eq_zero.mp (Nat.le_zero.mp ht)
    subst hni
    rfl
  | succ n ih =>
    intro t ht
    match t with
    | [] => rfl
    | c :: rest =>
      simp only [List.length_cons] at ht
      by_cases h2 : ('$' :: (k1 ++ ext)).isPrefixOf (c :: rest) = true
      · obtain ⟨hc, r', hr⟩ := cons_isPrefixOf_decomp h2
        subst hc
        subst hr
        rw [pyReplace_cons ('$' :: (k1 ++ ext)) (hd2 :: tl2) '$' _,
          if_pos ⟨h2, by simp⟩]
        have hdrop : ((k1 ++ ext) ++ r').drop (('$' :: (k1 ++ ext)).length - 1) = r' := by
          simp only [List.length_cons, Nat.add_sub_cancel]
          exact List.drop_left _ _
        rw [hdrop]
        rw [pyReplace_append_left '$' k1 i1 (hd2 :: tl2) _ hdol2]
        rw [ih r' (by simp only [List.length_append] at ht; omega)]
        rw [simulSubstSpec_cons, if_pos h2, List.drop_left]
      · by_cases h1 : ('$' :: k1).isPrefixOf (c :: rest) = true
        · obtain ⟨hc, r'', hr⟩ := cons_isPrefixOf_decomp h1
          subst hc
          subst hr
          rw [pyReplace_cons ('$' :: (k1 ++ ext)) (hd2 :: tl2) '$' _,
            if_neg (fun hcon => h2 hcon.1)]
          rw [pyReplace_append_left '$' (k1 ++ ext) (hd2 :: tl2) k1 _ hdk1]
          rw [pyReplace_cons ('$' :: k1) i1 '$' _,
            if_pos ⟨cons_isPrefixOf_append '$' k1 _, by simp⟩]
          have hdrop : (k1 ++ pyReplace ('$' :: (k1 ++ ext)) (hd2 :: tl2) r'').drop
              (('$' :: k1).length - 1) = pyReplace ('$' :: (k1 ++ ext)) (hd2 :: tl2) r'' := by
            simp only [List.length_cons, Nat.add_sub_cancel]
            exact List.drop_left _ _
          rw [hdrop]
          rw [ih r'' (by simp only [List.length_append] at ht; omega)]
          rw [simulSubstSpec_cons, if_neg h2, if_pos h1, List.drop_left]
        · rw [pyReplace_cons ('$' :: (k1 ++ ext)) (hd2 :: tl2) c rest,
            if_neg (fun hcon => h2 hcon.1)]
          rw [pyReplace_cons ('$' :: k1) i1 c _, if_neg]
          · rw [ih rest (by omega)]
            rw [simulSubstSpec_cons, if_neg h2, if_neg h1]
          · intro hcon
            have hp := hcon.1
            rw [List.isPrefixOf, Bool.and_eq_true] at hp
            have hk1p := isPrefixOf_pyReplace_reflect (fun x => isIdChar x)
              ('$' :: (k1 ++ ext)) hd2 tl2 hhd2 rest k1 hk1 hp.2
            apply h1
            rw [List.isPrefixOf, Bool.and_eq_true]
            exact ⟨hp.1, hk1p⟩

theorem sortParams_pair (p q : List Char × Value) (hlen : p.1.length < q.1.length) :
    sortParams [p, q] = [q, p] ∧ sortParams [q, p] = [q, p] := by
  constructor
  · show insertByLen q (insertByLen p []) = [q, p]
    show insertByLen q [p] = [q, p]
    unfold insertByLen
    rw [if_pos hlen]
  · show insertByLen p (insertByLen q []) = [q, p]
    show insertByLen p [q] = [q, p]
    unfold insertByLen
    rw [if_neg (by omega)]
    rfl

theorem foldl_no_occurrence (t : List Char) :
    ∀ L : List (List Char × Value),
      (∀ pr ∈ L, occursIn ('$' :: pr.1) t = false) →
      L.foldl (fun acc p => pyReplace ('$' :: p.1) (rtfInsert p.2) acc) t = t := by
  intro L
  induction L with
  | nil => intro _; rfl
  | cons e L ih =>
    intro hL
    simp only [List.foldl_cons]
    rw [pyReplace_no_occurrence _ _ _ (hL e (by simp))]
    exact ih (fun r hr => hL r (List.mem_cons_of_mem _ hr))

theorem infixPiece_of_mem_joinSep (sep x : List Char) :
    ∀ xs, x ∈ xs → List.IsInfix x (joinSep sep xs) := by
  intro xs
  induction xs with
  | nil =>
    intro h
    simp at h
  | cons y ys ih =>
    intro hx
    rcases List.mem_cons.mp hx with rfl | hx
    · cases ys with
      | nil => exact List.infix_refl x
      | cons z zs =>
        refine ⟨[], sep ++ joinSep sep (z :: zs), ?_⟩
        show [] ++ x ++ (sep ++ joinSep sep (z :: zs)) = joinSep sep (x :: z :: zs)
        show [] ++ x ++ (sep ++ joinSep sep (z :: zs)) = x ++ sep ++ joinSep sep (z :: zs)
        simp [List.append_assoc]
    · cases ys with
      | nil => simp at hx
      | cons z zs =>
        obtain ⟨s, t, hst⟩ := ih hx
        refine ⟨y ++ sep ++ s, t, ?_⟩
        show (y ++ sep ++ s) ++ x ++ t = y ++ sep ++ joinSep sep (z :: zs)
        rw [← hst]
        simp [List.append_assoc]

theorem escAll_cons (c : Char) (s : List Char) : escAll (c :: s) = escChar c ++ escAll s := rfl

theorem litScan_quote (rest : List Char) : litScan ('"' :: rest) = some rest := by
  unfold litScan
  rw [if_pos rfl]

theorem litScan_escape (d : Char) (rest : List Char) :
    litScan ('\\' :: d :: rest) = litScan rest := by
  conv_lhs => unfold litScan
  rw [if_neg (by decide), if_pos rfl]

theorem litScan_other (c : Char) (rest : List Char) (h1 : c ≠ '"') (h2 : c ≠ '\\') :
    litScan (c :: rest) = litScan rest := by
  conv_lhs => unfold litScan
  rw [if_neg h1, if_neg h2]

theorem pyReplace_single_append (a : Char) (r : List Char) :
    ∀ xs ys : List Char,
      pyReplace [a] r (xs ++ ys) = pyReplace [a] r xs ++ pyReplace [a] r ys := by
  intro xs
  induction xs with
  | nil =>
    intro ys
    rfl
  | cons x xtl ih =>
    intro ys
    rw [List.cons_append, pyReplace_single_cons, pyReplace_single_cons]
    by_cases hx : x = a
    · rw [if_pos hx, if_pos hx, ih, List.append_assoc]
    · rw [if_neg hx, if_neg hx, ih]
      rfl

theorem escTriple_eq_escAll : ∀ s : List Char, escTriple s = escAll s := by
  intro s
  induction s with
  | nil => rfl
  | cons c s ih =>
    unfold escTriple at ih ⊢
    rw [pyReplace_single_cons]
    by_cases h1 : c = '"'
    · rw [if_pos h1]
      rw [pyReplace_single_append, pyReplace_single_append, ih]
      rw [show pyReplace ['\r'] ['\\', 'r'] (pyReplace ['\n'] ['\\', 'n'] ['\\', '"'])
          = ['\\', '"'] from by decide]
      rw [h1, escAll_cons]
      rw [show escChar '"' = ['\\', '"'] from by decide]
    · rw [if_neg h1]
      rw [show (c :: pyReplace ['"'] ['\\', '"'] s)
          = [c] ++ pyReplace ['"'] ['\\', '"'] s from rfl]
      rw [pyReplace_single_append, pyReplace_single_append, ih, escAll_cons]
      congr 1
      by_cases h2 : c = '\n'
      · rw [h2]
        decide
      · by_cases h3 : c = '\r'
        · rw [h3]
          decide
        · rw [pyReplace_single_cons, if_neg h2]
          rw [show pyReplace ['\n'] ['\\', 'n'] ([] : List Char) = [] from rfl]
          rw [pyReplace_single_cons, if_neg h3]
          rw [show pyReplace ['\r'] ['\\', 'r'] ([] : List Char) = [] from rfl]
          unfold escChar
          rw [if_neg h1, if_neg h2, if_neg h3]

theorem litScan_escAll (tail : List Char) :
    ∀ s : List Char, '\\' ∉ s → litScan (escAll s ++ '"' :: tail) = some tail := by
  intro s
  induction s with
  | nil => exact fun _ => litScan_quote tail
  | cons c s ih =>
    intro h
    have hs : '\\' ∉ s := fun hm => h (List.mem_cons_of_mem _ hm)
    have hc : c ≠ '\\' := fun he => h (by rw [← he]; simp)
    show litScan ((escChar c ++ escAll s) ++ '"' :: tail) = some tail
    rw [List.append_assoc]
    unfold escChar
    by_cases h1 : c = '"'
    · rw [if_pos h1]
      show litScan ('\\' :: '"' :: (escAll s ++ '"' :: tail)) = some tail
      rw [litScan_escape]
      exact ih hs
    · rw [if_neg h1]
      by_cases h2 : c = '\n'
      · rw [if_pos h2]
        show litScan ('\\' :: 'n' :: (escAll s ++ '"' :: tail)) = some tail
        rw [litScan_escape]
        exact ih hs
      · rw [if_neg h2]
        by_cases h3 : c = '\r'
        · rw [if_pos h3]
          show litScan ('\\' :: 'r' :: (escAll s ++ '"' :: tail)) = some tail
          rw [litScan_escape]
          exact ih hs
        · rw [if_neg h3]
          show litScan (c :: (escAll s ++ '"' :: tail)) = some tail
          rw [litScan_other c _ h1 hc]
          exact ih hs

/-- Claim C1 (amended): in the RTF importer's templater, every string-typed
value is substituted as the escaped text wrapped in double quotes, where
the escaping leaves no raw newline or carriage return and every double
quote immediately preceded by a backslash; when the value contains no
backslash — a character the escaping never treats — the inserted text is a
single well-formed string literal that cannot break out: lexing it closes
exactly at the inserted closing quote and leaves the rest of the query
untouched.  Integer-typed values are substituted as their decimal text,
which contains no quote.  (The plain importer, by contrast, wraps string
values in quotes without escaping, and a backslash-containing value breaks
out even in the RTF variant — see the counterexample.) -/
theorem C1_theorem :
    (∀ s : List Char, quotesEscaped (escTriple s) = true ∧
      '\n' ∉ escTriple s ∧ '\r' ∉ escTriple s) ∧
    (∀ (t k v : List Char),
      rtfRender [(k, Value.str v)] t
        = pyReplace ('$' :: k) ('"' :: (escTriple v ++ ['"'])) t) ∧
    (∀ (v tail : List Char), '\\' ∉ v →
      litScan (escTriple v ++ '"' :: tail) = some tail) ∧
    (∀ (t k : List Char) (n : Int),
      rtfRender [(k, Value.int n)] t = pyReplace ('$' :: k) (intRepr n) t ∧
      '"' ∉ intRepr n) := by
  refine ⟨fun s => ⟨quotesEscaped_escTriple s, escTriple_no_lf s, escTriple_no_cr s⟩,
    ?_, ?_, ?_⟩
  · intro t k v
    rfl
  · intro v tail h
    rw [escTriple_eq_escAll]
    exact litScan_escAll tail v h
  · intro t k n
    exact ⟨rfl, quote_not_mem_intRepr n⟩

/-- Claim C1 counterexample: two failures of the claim as stated.  The
plain importer (`KnowledgeGraphImporter.execute_cypher`) wraps the string
value `a"b` in double quotes without escaping its embedded quote, so the
rendered text differs from the escaped form the claim requires.  And in
the RTF importer, a value consisting of one backslash — which the escaping
never touches — renders as a quoted text whose closing quote is escaped
away: lexing the literal never finds a closing quote, so it is not a
single well-formed literal and the value breaks out of it. -/
theorem C1_counterexample :
    (plainRender (some [(("d".toList), Value.str ("a\"b".toList))]) ("X".toList)
      = "CYPHER d=\"a\"b\" X".toList ∧
    ("CYPHER d=\"a\"b\" X".toList : List Char) ≠ "CYPHER d=\"a\\\"b\" X".toList) ∧
    (rtfRender [(("k".toList), Value.str ("\\".toList))] ("$k".toList)
      = "\"\\\"".toList ∧
    escTriple ("\\".toList) = "\\".toList ∧
    litScan (escTriple ("\\".toList) ++ '"' :: []) = none ∧
    (none : Option (List Char)) ≠ some []) := by
  exact ⟨⟨by decide, by decide⟩, by decide, by decide, by decide, by decide⟩

/-- Claim C1 witness: the no-break-out conjunct applied to a backslash-free
value containing a quote, a newline and a carriage return — the rendered
literal closes exactly at its final quote, leaving the rest of the query
untouched. -/
theorem C1_witness :
    litScan (escTriple ("a\"b\nc\rd".toList) ++ '"' :: (" RETURN n".toList))
      = some (" RETURN n".toList) :=
  C1_theorem.2.2.1 ("a\"b\nc\rd".toList) (" RETURN n".toList) (by decide)

/-- Claim C2 (amended): for a mapping of the two placeholder names `k1` and
`k1 ++ ext` — nonempty identifier names, one a strict prefix of the other —
with distinct values whose substituted literals contain no dollar
character, the templater renders the query exactly as simultaneous
longest-match-first substitution of each placeholder by its own literal,
for both orderings of the mapping. -/
theorem C2_theorem (k1 ext : List Char) (v1 v2 : Value) (t : List Char)
    (_hk1ne : k1 ≠ []) (hextne : ext ≠ [])
    (hk1 : ∀ c ∈ k1, isIdChar c = true) (_hext : ∀ c ∈ ext, isIdChar c = true)
    (_hne : v1 ≠ v2)
    (_hd1 : '$' ∉ rtfInsert v1) (hd2 : '$' ∉ rtfInsert v2) :
    rtfRender [(k1, v1), (k1 ++ ext, v2)] t
        = simulSubstSpec k1 (rtfInsert v1) (k1 ++ ext) (rtfInsert v2) t ∧
    rtfRender [(k1 ++ ext, v2), (k1, v1)] t
        = simulSubstSpec k1 (rtfInsert v1) (k1 ++ ext) (rtfInsert v2) t := by
  have hlen : k1.length < (k1 ++ ext).length := by
    simp only [List.length_append]
    cases ext with
    | nil => exact absurd rfl hextne
    | cons a b => simp
  obtain ⟨hd, tl, heq, hhd⟩ := rtfInsert_head_not_id v2
  have h1 : rtfRender [(k1, v1), (k1 ++ ext, v2)] t
      = pyReplace ('$' :: k1) (rtfInsert v1)
          (pyReplace ('$' :: (k1 ++ ext)) (rtfInsert v2) t) := by
    unfold rtfRender
    rw [(sortParams_pair (k1, v1) (k1 ++ ext, v2) hlen).1]
    rfl
  have h2 : rtfRender [(k1 ++ ext, v2), (k1, v1)] t
      = pyReplace ('$' :: k1) (rtfInsert v1)
          (pyReplace ('$' :: (k1 ++ ext)) (rtfInsert v2) t) := by
    unfold rtfRender
    rw [(sortParams_pair (k1, v1) (k1 ++ ext, v2) hlen).2]
    rfl
  rw [h1, h2, heq]
  have hmain := seq_eq_simul k1 ext (rtfInsert v1) hd tl hk1 hhd
    (by rw [← heq]; exact hd2) t.length t (le_refl _)
  exact ⟨hmain, hmain⟩

/-- Claim C2 witness: the theorem applied to the names id and id_extra with
values A and B on a template containing both placeholders. -/
theorem C2_witness :
    rtfRender [(("id".toList), Value.str ("A".toList)),
               (("id".toList ++ "_extra".toList), Value.str ("B".toList))]
        ("$id_extra and $id".toList)
      = simulSubstSpec ("id".toList) (rtfInsert (Value.str ("A".toList)))
          ("id".toList ++ "_extra".toList) (rtfInsert (Value.str ("B".toList)))
          ("$id_extra and $id".toList) ∧
    rtfRender [(("id".toList ++ "_extra".toList), Value.str ("B".toList)),
               (("id".toList), Value.str ("A".toList))]
        ("$id_extra and $id".toList)
      = simulSubstSpec ("id".toList) (rtfInsert (Value.str ("A".toList)))
          ("id".toList ++ "_extra".toList) (rtfInsert (Value.str ("B".toList)))
          ("$id_extra and $id".toList) :=
  C2_theorem ("id".toList) ("_extra".toList)
    (Value.str ("A".toList)) (Value.str ("B".toList))
    ("$id_extra and $id".toList)
    (by decide) (by decide) (by decide) (by decide) (by decide) (by decide) (by decide)

/-- Claim C2 counterexample: mapping id ↦ X, id_extra ↦ the string
dollar-i-d (names prefix-related, values distinct) on the template holding
only the id_extra placeholder: the rendered output corrupts the literal of
id_extra — it differs from substituting each placeholder by its own
literal — because the second replacement rewrites the dollar token inside
the first inserted value. -/
theorem C2_counterexample :
    rtfRender [(("id".toList), Value.str ("X".toList)),
               (("id_extra".toList), Value.str ("$id".toList))]
        ("$id_extra".toList)
      = "\"\"X\"\"".toList ∧
    simulSubstSpec ("id".toList) (rtfInsert (Value.str ("X".toList)))
        ("id_extra".toList) (rtfInsert (Value.str ("$id".toList)))
        ("$id_extra".toList)
      = "\"$id\"".toList ∧
    ("\"\"X\"\"".toList : List Char) ≠ "\"$id\"".toList := by
  exact ⟨by decide, by decide, by decide⟩

/-- Claim C6 (amended): the plain importer flattens a list-typed value to a
comma-joined, double-quoted literal inside its rendered query; the RTF
importer instead substitutes the Python string form of the list, unquoted
(see the counterexample). -/
theorem C6_theorem :
    (∀ (ps : List (List Char × Value)) (q k : List Char) (es : List (List Char)),
      (k, Value.list es) ∈ ps →
      List.IsInfix (k ++ ('=' :: '"' :: (joinSep [','] es ++ ['"'])))
        (plainRender (some ps) q)) ∧
    (∀ (t k : List Char) (es : List (List Char)),
      rtfRender [(k, Value.list es)] t
        = pyReplace ('$' :: k) (pyStr (Value.list es)) t) := by
  constructor
  · intro ps q k es hmem
    have h2 : formatParam k (Value.list es) ∈ ps.map (fun p => formatParam p.1 p.2) :=
      List.mem_map.mpr ⟨(k, Value.list es), hmem, rfl⟩
    have h3 := infixPiece_of_mem_joinSep [' '] _ _ h2
    obtain ⟨s, t2, hst⟩ := h3
    refine ⟨"CYPHER ".toList ++ s, t2 ++ (' ' :: q), ?_⟩
    show ("CYPHER ".toList ++ s) ++ formatParam k (Value.list es) ++ (t2 ++ (' ' :: q))
        = "CYPHER ".toList ++ joinSep [' '] (ps.map (fun p => formatParam p.1 p.2)) ++ (' ' :: q)
    rw [← hst]
    simp [List.append_assoc]
  · intro t k es
    rfl

/-- Claim C6 witness: a two-element list value in the plain importer renders
as the comma-joined quoted literal inside the assembled query. -/
theorem C6_witness :
    List.IsInfix
      (("roles".toList) ++ ('=' :: '"' :: (joinSep [','] [("a".toList), ("b".toList)] ++ ['"'])))
      (plainRender (some [(("roles".toList), Value.list [("a".toList), ("b".toList)])])
        ("Q".toList)) :=
  C6_theorem.1 [(("roles".toList), Value.list [("a".toList), ("b".toList)])]
    ("Q".toList) ("roles".toList) [("a".toList), ("b".toList)] (by decide)

/-- Claim C6 counterexample: the RTF importer substitutes a list value as
its Python string form, bracketed and single-quoted and unquoted as a
whole — not as the comma-joined double-quoted literal the claim states. -/
theorem C6_counterexample :
    rtfRender [(("roles".toList), Value.list [("a".toList), ("b".toList)])]
        ("$roles".toList)
      = "['a', 'b']".toList ∧
    ("['a', 'b']".toList : List Char) ≠ "\"a,b\"".toList := by
  exact ⟨by decide, by decide⟩

/-- Claim C7 (amended): when every placeholder name in the mapping is made
of identifier characters and no substituted literal contains a dollar
character, no mapped placeholder token survives in the rendered output;
and a template in which no mapped placeholder token occurs at all (only
unknown placeholders) is returned unchanged, without error. -/
theorem C7_theorem :
    (∀ (params : List (List Char × Value)) (t : List Char),
      (∀ pr ∈ params, (∀ c ∈ pr.1, isIdChar c = true) ∧ '$' ∉ rtfInsert pr.2) →
      ∀ pr ∈ params, occursIn ('$' :: pr.1) (rtfRender params t) = false) ∧
    (∀ (params : List (List Char × Value)) (t : List Char),
      (∀ pr ∈ params, occursIn ('$' :: pr.1) t = false) →
      rtfRender params t = t) := by
  constructor
  · intro params t hps pr hpr
    unfold rtfRender
    exact occursIn_foldl_self (sortParams params)
      (fun r hr => (hps r ((mem_sortParams r params).mp hr)).1)
      (fun r hr => (hps r ((mem_sortParams r params).mp hr)).2)
      t pr ((mem_sortParams pr params).mpr hpr)
  · intro params t hps
    unfold rtfRender
    exact foldl_no_occurrence t (sortParams params)
      (fun r hr => hps r ((mem_sortParams r params).mp hr))

/-- Claim C7 witness: with the identifier name node_id and a plain string
value, the rendered output holds no node_id token, and a template with
only an unmapped placeholder is returned unchanged. -/
theorem C7_witness :
    occursIn ("$node_id".toList)
      (rtfRender [(("node_id".toList), Value.str ("T1".toList))]
        ("MATCH n = $node_id".toList)) = false ∧
    rtfRender [(("node_id".toList), Value.str ("T1".toList))]
        ("RETURN $other".toList) = "RETURN $other".toList :=
  ⟨C7_theorem.1 [(("node_id".toList), Value.str ("T1".toList))]
      ("MATCH n = $node_id".toList) (by decide)
      (("node_id".toList), Value.str ("T1".toList)) (by decide),
   C7_theorem.2 [(("node_id".toList), Value.str ("T1".toList))]
      ("RETURN $other".toList) (by decide)⟩

/-- Claim C7 counterexample: with mapping ab ↦ A and a ↦ the string
dollar-a-b, rendering the a-placeholder leaves the mapped token of ab in
the output; and with mapping a ↦ X, the unmapped placeholder token of the
name ab is not left untouched — it is corrupted to a quoted X followed by
the letter b. -/
theorem C7_counterexample :
    occursIn ("$ab".toList)
      (rtfRender [(("ab".toList), Value.str ("A".toList)),
                  (("a".toList), Value.str ("$ab".toList))] ("$a".toList)) = true ∧
    rtfRender [(("a".toList), Value.str ("X".toList))] ("$ab".toList)
      = "\"X\"b".toList ∧
    ("\"X\"b".toList : List Char) ≠ "$ab".toList := by
  exact ⟨by decide, by decide, by decide⟩

theorem executeCypherRTF_some (ex : List Char → Except (List Char) (List (List Char)))
    (st : Stats) (query : List Char) (ps : List (List Char × Value)) :
    executeCypherRTF ex st query (some ps)
      = match ex (rtfRender ps query) with
        | .ok r => ({ st with submitted := st.submitted ++ [rtfRender ps query] }, r)
        | .error e =>
            ({ st with submitted := st.submitted ++ [rtfRender ps query],
                       errors := st.errors ++ [errEntry (rtfRender ps query) e] }, []) := rfl

theorem importUsedIn_run (ex : List Char → Except (List Char) (List (List Char)))
    (now : List Char) (rows : List Row) :
    ∀ st : Stats, (∀ row ∈ rows, (buildUsedInParams now row).isSome = true) →
    (importUsedIn ex now rows st).2 = false ∧
    (importUsedIn ex now rows st).1.used_in = st.used_in + rows.length ∧
    (importUsedIn ex now rows st).1.submitted
      = st.submitted ++ rows.filterMap (rowQuery now) ∧
    (importUsedIn ex now rows st).1.errors
      = st.errors ++ rows.filterMap (fun row =>
          (rowQuery now row).bind (fun q =>
            match ex q with
            | .ok _ => none
            | .error e => some (errEntry q e))) := by
  induction rows with
  | nil =>
    intro st _
    simp [importUsedIn]
  | cons row rest ih =>
    intro st h
    obtain ⟨ps, hps⟩ := Option.isSome_iff_exists.mp (h row (by simp))
    have hrest : ∀ r ∈ rest, (buildUsedInParams now r).isSome = true :=
      fun r hr => h r (List.mem_cons_of_mem _ hr)
    have hrq : rowQuery now row = some (rtfRender ps usedInTemplate) := by
      unfold rowQuery
      rw [hps]
      rfl
    simp only [importUsedIn, hps, executeCypherRTF_some]
    cases hex : ex (rtfRender ps usedInTemplate) with
    | ok rres =>
      obtain ⟨ha, hb, hc, hd⟩ := ih { st with used_in := st.used_in + 1, submitted := st.submitted ++ [rtfRender ps usedInTemplate] } hrest
      refine ⟨ha, ?_, ?_, ?_⟩
      · rw [hb]
        simp only [List.length_cons]
        omega
      · rw [hc]
        simp only [List.filterMap_cons, hrq]
        simp [List.append_assoc]
      · rw [hd]
        simp only [List.filterMap_cons, hrq, Option.some_bind, hex]
    | error e =>
      obtain ⟨ha, hb, hc, hd⟩ := ih { st with used_in := st.used_in + 1, submitted := st.submitted ++ [rtfRender ps usedInTemplate], errors := st.errors ++ [errEntry (rtfRender ps usedInTemplate) e] } hrest
      refine ⟨ha, ?_, ?_, ?_⟩
      · rw [hb]
        simp only [List.length_cons]
        omega
      · rw [hc]
        simp only [List.filterMap_cons, hrq]
        simp [List.append_assoc]
      · rw [hd]
        simp only [List.filterMap_cons, hrq, Option.some_bind, hex]
        simp [List.append_assoc]

theorem importUsedIn_append (ex : List Char → Except (List Char) (List (List Char)))
    (now : List Char) (rows1 rows2 : List Row) :
    ∀ st : Stats, (∀ row ∈ rows1, (buildUsedInParams now row).isSome = true) →
      importUsedIn ex now (rows1 ++ rows2) st
        = importUsedIn ex now rows2 (importUsedIn ex now rows1 st).1 := by
  induction rows1 with
  | nil =>
    intro st _
    rfl
  | cons row rest ih =>
    intro st h
    obtain ⟨ps, hps⟩ := Option.isSome_iff_exists.mp (h row (by simp))
    simp only [List.cons_append, importUsedIn, hps]
    exact ih _ (fun r hr => h r (List.mem_cons_of_mem _ hr))

/-- Claim C5: for every table run whose rows all build their parameter
dictionaries, every row is rendered and submitted, the loop never aborts,
the counter counts every attempted row regardless of the submission's
outcome, and exactly the rows on which the store raises contribute an
error entry made of the first 100 characters of the rendered query plus
the message, in order. -/
theorem C5_theorem (ex : List Char → Except (List Char) (List (List Char)))
    (now : List Char) (rows : List Row) (st : Stats)
    (h : ∀ row ∈ rows, (buildUsedInParams now row).isSome = true) :
    (importUsedIn ex now rows st).2 = false ∧
    (importUsedIn ex now rows st).1.used_in = st.used_in + rows.length ∧
    (importUsedIn ex now rows st).1.submitted
      = st.submitted ++ rows.filterMap (rowQuery now) ∧
    (importUsedIn ex now rows st).1.errors
      = st.errors ++ rows.filterMap (fun row =>
          (rowQuery now row).bind (fun q =>
            match ex q with
            | .ok _ => none
            | .error e => some (errEntry q e))) :=
  importUsedIn_run ex now rows st h

/-- Claim C5 witness: two valid rows against a store that rejects every
query — both rows are submitted and counted, two error entries collected,
and the run does not abort. -/
theorem C5_witness :
    (importUsedIn (fun _ => Except.error ("boom".toList)) ("2025-01-01T00:00:00".toList)
        [usedInRow ("5".toList), usedInRow ("7".toList)] {}).2 = false ∧
    (importUsedIn (fun _ => Except.error ("boom".toList)) ("2025-01-01T00:00:00".toList)
        [usedInRow ("5".toList), usedInRow ("7".toList)] {}).1.used_in
      = ({} : Stats).used_in + ([usedInRow ("5".toList), usedInRow ("7".toList)] : List Row).length ∧
    (importUsedIn (fun _ => Except.error ("boom".toList)) ("2025-01-01T00:00:00".toList)
        [usedInRow ("5".toList), usedInRow ("7".toList)] {}).1.submitted
      = ({} : Stats).submitted
        ++ ([usedInRow ("5".toList), usedInRow ("7".toList)] : List Row).filterMap
            (rowQuery ("2025-01-01T00:00:00".toList)) ∧
    (importUsedIn (fun _ => Except.error ("boom".toList)) ("2025-01-01T00:00:00".toList)
        [usedInRow ("5".toList), usedInRow ("7".toList)] {}).1.errors
      = ({} : Stats).errors
        ++ ([usedInRow ("5".toList), usedInRow ("7".toList)] : List Row).filterMap
            (fun row =>
              (rowQuery ("2025-01-01T00:00:00".toList) row).bind (fun q =>
                match (fun _ => Except.error ("boom".toList) :
                    List Char → Except (List Char) (List (List Char))) q with
                | .ok _ => none
                | .error e => some (errEntry q e))) :=
  C5_theorem (fun _ => Except.error ("boom".toList)) ("2025-01-01T00:00:00".toList)
    [usedInRow ("5".toList), usedInRow ("7".toList)] {} (by decide)

/-- Claim C3 (amended): one malformed integer-typed field aborts the table
load at that row — rows before it are submitted and counted, while the
malformed row and all subsequent rows of the table are not attempted. -/
theorem C3_theorem (ex : List Char → Except (List Char) (List (List Char)))
    (now : List Char) (rows1 : List Row) (rbad : Row) (rows2 : List Row) (st : Stats)
    (h1 : ∀ row ∈ rows1, (buildUsedInParams now row).isSome = true)
    (hbad : buildUsedInParams now rbad = none) :
    (importUsedIn ex now (rows1 ++ rbad :: rows2) st).2 = true ∧
    (importUsedIn ex now (rows1 ++ rbad :: rows2) st).1.used_in
      = st.used_in + rows1.length ∧
    (importUsedIn ex now (rows1 ++ rbad :: rows2) st).1.submitted
      = st.submitted ++ rows1.filterMap (rowQuery now) := by
  obtain ⟨_, hb, hc, _⟩ := importUsedIn_run ex now rows1 st h1
  rw [importUsedIn_append ex now rows1 (rbad :: rows2) st h1]
  have habort : importUsedIn ex now (rbad :: rows2) (importUsedIn ex now rows1 st).1
      = ((importUsedIn ex now rows1 st).1, true) := by
    simp [importUsedIn, hbad]
  rw [habort]
  exact ⟨rfl, hb, hc⟩

/-- Claim C3 witness: the amended theorem applied to one valid row, then a
row whose priority score is the text abc, then another valid row. -/
theorem C3_witness :
    (importUsedIn (fun _ => Except.ok []) ("2025-01-01T00:00:00".toList)
        ([usedInRow ("5".toList)] ++ usedInRow ("abc".toList) :: [usedInRow ("7".toList)]) {}).2
      = true ∧
    (importUsedIn (fun _ => Except.ok []) ("2025-01-01T00:00:00".toList)
        ([usedInRow ("5".toList)] ++ usedInRow ("abc".toList) :: [usedInRow ("7".toList)]) {}).1.used_in
      = ({} : Stats).used_in + ([usedInRow ("5".toList)] : List Row).length ∧
    (importUsedIn (fun _ => Except.ok []) ("2025-01-01T00:00:00".toList)
        ([usedInRow ("5".toList)] ++ usedInRow ("abc".toList) :: [usedInRow ("7".toList)]) {}).1.submitted
      = ({} : Stats).submitted
        ++ ([usedInRow ("5".toList)] : List Row).filterMap (rowQuery ("2025-01-01T00:00:00".toList)) :=
  C3_theorem (fun _ => Except.ok []) ("2025-01-01T00:00:00".toList)
    [usedInRow ("5".toList)] (usedInRow ("abc".toList)) [usedInRow ("7".toList)] {}
    (by decide) (by decide)

/-- Claim C3 counterexample: three USED_IN rows where row 2 has the
priority score abc, against a store that accepts everything — only row 1
is submitted and counted (the claim requires rows 1 and 3 both attempted
and counted), and the table run aborts. -/
theorem C3_counterexample :
    (importUsedIn (fun _ => Except.ok []) ("2025-01-01T00:00:00".toList)
        [usedInRow ("5".toList), usedInRow ("abc".toList), usedInRow ("7".toList)] {}).1.used_in
      = 1 ∧
    ((importUsedIn (fun _ => Except.ok []) ("2025-01-01T00:00:00".toList)
        [usedInRow ("5".toList), usedInRow ("abc".toList), usedInRow ("7".toList)] {}).1.submitted).length
      = 1 ∧
    (importUsedIn (fun _ => Except.ok []) ("2025-01-01T00:00:00".toList)
        [usedInRow ("5".toList), usedInRow ("abc".toList), usedInRow ("7".toList)] {}).2
      = true := by
  exact ⟨by decide, by decide, by decide⟩

/-- Claim C10: the query operation never raises — an execution error yields
the empty list, as does a result with fewer than two elements; otherwise
it yields one dictionary per row of the result's second element, and a
key/value pair is in a row's dictionary exactly when the key sits at some
position of the header row and the row has a value at that position. -/
theorem C10_theorem :
    (∀ e, kgQuery (Except.error e) = []) ∧
    (∀ result : List RV, result.length < 2 → kgQuery (Except.ok result) = []) ∧
    (∀ result : List RV, 2 ≤ result.length →
      kgQuery (Except.ok result)
        = (asList (result.getD 1 (RV.arr []))).map
            (rowDict (asList (result.getD 0 (RV.arr []))))) ∧
    (∀ (headers : List RV) (row : RV) (k v : RV),
      (k, v) ∈ rowDict headers row ↔
        ∃ i, headers.get? i = some k ∧ (asList row).get? i = some v) := by
  refine ⟨fun e => rfl, ?_, ?_, ?_⟩
  · intro result h
    simp [kgQuery, h]
  · intro result h
    simp [kgQuery, Nat.not_lt.mpr h]
  · intro headers row k v
    unfold rowDict
    rw [List.mem_filterMap]
    constructor
    · rintro ⟨⟨i, x⟩, hp, hfp⟩
      cases hv : (asList row).get? i with
      | none =>
        rw [hv] at hfp
        simp at hfp
      | some w =>
        rw [hv] at hfp
        simp only [Option.map_some', Option.some.injEq] at hfp
        obtain ⟨hx, hw⟩ := Prod.mk.injEq .. ▸ hfp
        refine ⟨i, ?_, ?_⟩
        · have hmem := List.mk_mem_enum_iff_getElem?.mp hp
          rw [← hx, List.get?_eq_getElem?]
          exact hmem
        · rw [← hw]
          exact hv
    · rintro ⟨i, hk, hv⟩
      refine ⟨(i, k), List.mk_mem_enum_iff_getElem?.mpr (by rw [← List.get?_eq_getElem?]; exact hk), ?_⟩
      rw [hv]
      rfl

/-- Claim C10 witness: a short result is formatted to the empty list, a
two-element result to one dictionary per row, and the header/value pair of
a concrete row satisfies the position characterization. -/
theorem C10_witness :
    kgQuery (Except.ok [RV.arr [RV.s ("h".toList)]]) = [] ∧
    kgQuery (Except.ok [RV.arr [RV.s ("h".toList)], RV.arr [RV.arr [RV.s ("v".toList)]]])
      = (asList (([RV.arr [RV.s ("h".toList)],
            RV.arr [RV.arr [RV.s ("v".toList)]]] : List RV).getD 1 (RV.arr []))).map
          (rowDict (asList (([RV.arr [RV.s ("h".toList)],
            RV.arr [RV.arr [RV.s ("v".toList)]]] : List RV).getD 0 (RV.arr [])))) ∧
    ((RV.s ("h".toList), RV.s ("v".toList))
        ∈ rowDict [RV.s ("h".toList)] (RV.arr [RV.s ("v".toList)]) ↔
      ∃ i, ([RV.s ("h".toList)] : List RV).get? i = some (RV.s ("h".toList)) ∧
        (asList (RV.arr [RV.s ("v".toList)])).get? i = some (RV.s ("v".toList))) :=
  ⟨C10_theorem.2.1 [RV.arr [RV.s ("h".toList)]] (by simp),
   C10_theorem.2.2.1 [RV.arr [RV.s ("h".toList)], RV.arr [RV.arr [RV.s ("v".toList)]]] (by simp),
   C10_theorem.2.2.2 [RV.s ("h".toList)] (RV.arr [RV.s ("v".toList)])
     (RV.s ("h".toList)) (RV.s ("v".toList))⟩

theorem afterFirstMarker_none (m : List Char) :
    ∀ l, occursIn m l = false → afterFirstMarker m l = none := by
  intro l
  induction l with
  | nil => intro _; rfl
  | cons c rest ih =>
    intro h
    rw [occursIn_cons, Bool.or_eq_false_iff] at h
    unfold afterFirstMarker
    rw [if_neg (by rw [h.1]; exact Bool.false_ne_true)]
    exact ih h.2

theorem afterFirstMarker_at (mc : Char) (mtl x : List Char) :
    afterFirstMarker (mc :: mtl) ((mc :: mtl) ++ x) = some x := by
  show afterFirstMarker (mc :: mtl) (mc :: (mtl ++ x)) = some x
  unfold afterFirstMarker
  rw [if_pos (cons_isPrefixOf_append mc mtl x)]
  simp only [List.length_cons, Option.some.injEq]
  show (mc :: (mtl ++ x)).drop (mtl.length + 1) = x
  rw [List.drop_succ_cons]
  exact List.drop_left _ _

theorem afterFirstMarker_skip (mc : Char) (mtl : List Char) :
    ∀ pre l, mc ∉ pre →
      afterFirstMarker (mc :: mtl) (pre ++ l) = afterFirstMarker (mc :: mtl) l := by
  intro pre
  induction pre with
  | nil => intro l _; rfl
  | cons p ps ih =>
    intro l hpre
    rw [List.cons_append]
    rw [show afterFirstMarker (mc :: mtl) (p :: (ps ++ l))
        = if (mc :: mtl).isPrefixOf (p :: (ps ++ l)) = true
          then some ((p :: (ps ++ l)).drop (mc :: mtl).length)
          else afterFirstMarker (mc :: mtl) (ps ++ l) from rfl]
    rw [if_neg]
    · exact ih l (fun hm => hpre (List.mem_cons_of_mem _ hm))
    · intro hcon
      rw [List.isPrefixOf, Bool.and_eq_true, beq_iff_eq] at hcon
      exact hpre (by simp [hcon.1])

theorem beforeBrace_append (xs ys : List Char) (h : '\x7d' ∉ xs) :
    beforeBrace (xs ++ '\x7d' :: ys) = some xs := by
  induction xs with
  | nil =>
    show beforeBrace ('\x7d' :: ys) = some []
    rw [show beforeBrace ('\x7d' :: ys)
        = if ('\x7d' : Char) = '\x7d' then some []
          else (beforeBrace ys).map (fun p => '\x7d' :: p) from rfl]
    rw [if_pos rfl]
  | cons x xtl ih =>
    rw [List.cons_append]
    rw [show beforeBrace (x :: (xtl ++ '\x7d' :: ys))
        = if x = '\x7d' then some []
          else (beforeBrace (xtl ++ '\x7d' :: ys)).map (fun p => x :: p) from rfl]
    rw [if_neg (fun hx => h (by simp [hx]))]
    rw [ih (fun hm => h (List.mem_cons_of_mem _ hm))]
    rfl

theorem splitOn_ne_nil (sep : Char) (l : List Char) : splitOn sep l ≠ [] := by
  cases l with
  | nil => simp [splitOn]
  | cons c rest =>
    unfold splitOn
    split
    · simp
    · split <;> simp

theorem mem_splitOn_subset (sep : Char) :
    ∀ (l piece : List Char), piece ∈ splitOn sep l →
      ∀ c ∈ piece, c ∈ l ∧ c ≠ sep := by
  intro l
  induction l with
  | nil =>
    intro piece hp c hc
    simp only [splitOn, List.mem_singleton] at hp
    subst hp
    simp at hc
  | cons x rest ih =>
    intro piece hp c hc
    unfold splitOn at hp
    split at hp
    · rcases List.mem_cons.mp hp with rfl | hp
      · simp at hc
      · obtain ⟨hcl, hcs⟩ := ih piece hp c hc
        exact ⟨List.mem_cons_of_mem _ hcl, hcs⟩
    · rename_i hxs
      rcases hsplit : splitOn sep rest with _ | ⟨p, ps⟩
      · exact absurd hsplit (splitOn_ne_nil sep rest)
      · rw [hsplit] at hp
        rcases List.mem_cons.mp hp with rfl | hp
        · rcases List.mem_cons.mp hc with rfl | hc
          · exact ⟨by simp, hxs⟩
          · obtain ⟨hcl, hcs⟩ := ih p (by rw [hsplit]; simp) c hc
            exact ⟨List.mem_cons_of_mem _ hcl, hcs⟩
        · obtain ⟨hcl, hcs⟩ := ih piece (by rw [hsplit]; exact List.mem_cons_of_mem _ hp) c hc
          exact ⟨List.mem_cons_of_mem _ hcl, hcs⟩

theorem joinSep_cons_cons (sep x y : List Char) (xs : List (List Char)) :
    joinSep sep (x :: y :: xs) = x ++ sep ++ joinSep sep (y :: xs) := rfl

theorem joinSep_splitOn (sep : Char) :
    ∀ l : List Char, joinSep [sep] (splitOn sep l) = l := by
  intro l
  induction l with
  | nil => rfl
  | cons c rest ih =>
    rcases hsplit : splitOn sep rest with _ | ⟨p, ps⟩
    · exact absurd hsplit (splitOn_ne_nil sep rest)
    · rw [hsplit] at ih
      have hshape : splitOn sep (c :: rest)
          = if c = sep then [] :: p :: ps else (c :: p) :: ps := by
        unfold splitOn
        rw [hsplit]
      rw [hshape]
      by_cases hceq : c = sep
      · rw [if_pos hceq]
        rw [joinSep_cons_cons]
        simp only [List.nil_append, List.singleton_append]
        rw [ih, hceq]
      · rw [if_neg hceq]
        cases ps with
        | nil =>
          show c :: p = c :: rest
          rw [show joinSep [sep] [p] = p from rfl] at ih
          rw [ih]
        | cons q qs =>
          rw [joinSep_cons_cons]
          rw [joinSep_cons_cons] at ih
          rw [List.cons_append, List.cons_append, ih]

theorem dropWhile_head_false (p : Char → Bool) :
    ∀ (l : List Char) (c : Char) (t : List Char), l.dropWhile p = c :: t → p c = false := by
  intro l
  induction l with
  | nil =>
    intro c t h
    simp at h
  | cons x xs ih =>
    intro c t h
    rw [List.dropWhile_cons] at h
    split at h
    · exact ih c t h
    · rename_i hx
      injection h with h1 _
      rw [h1] at hx
      exact Bool.eq_false_iff.mpr hx

theorem mem_pyStrip (l : List Char) (c : Char) (h : c ∈ pyStrip l) : c ∈ l := by
  unfold pyStrip at h
  rw [List.mem_reverse] at h
  have h2 := (List.dropWhile_suffix pyWS).subset h
  rw [List.mem_reverse] at h2
  exact (List.dropWhile_suffix pyWS).subset h2

theorem dropWhile_eq_self_head (p : Char → Bool) (l : List Char)
    (h : ∀ c t, l = c :: t → p c = false) : l.dropWhile p = l := by
  cases l with
  | nil => rfl
  | cons c t =>
    rw [List.dropWhile_cons, if_neg]
    rw [h c t rfl]
    exact Bool.false_ne_true

theorem pyStrip_eq_self (l : List Char)
    (hhead : ∀ c t, l = c :: t → pyWS c = false)
    (hlast : ∀ c, l.getLast? = some c → pyWS c = false) : pyStrip l = l := by
  unfold pyStrip
  rw [dropWhile_eq_self_head pyWS l hhead]
  rw [dropWhile_eq_self_head pyWS l.reverse]
  · exact List.reverse_reverse l
  · intro c t hrev
    apply hlast
    rw [← List.head?_reverse, hrev]
    rfl

theorem pyStrip_head_false (l : List Char) (c : Char) (t : List Char)
    (h : pyStrip l = c :: t) : pyWS c = false := by
  unfold pyStrip at h
  obtain ⟨pre, hpre⟩ := List.dropWhile_suffix (l := (l.dropWhile pyWS).reverse) pyWS
  have hA : l.dropWhile pyWS = (c :: t) ++ pre.reverse := by
    have hrev := congrArg List.reverse hpre
    rw [List.reverse_append, List.reverse_reverse] at hrev
    rw [h] at hrev
    exact hrev.symm
  exact dropWhile_head_false pyWS l c (t ++ pre.reverse)
    (by rw [hA, List.cons_append])

theorem pyStrip_last_false (l : List Char) (c : Char)
    (h : (pyStrip l).getLast? = some c) : pyWS c = false := by
  unfold pyStrip at h
  rw [List.getLast?_eq_head?_reverse, List.reverse_reverse] at h
  cases hB : (l.dropWhile pyWS).reverse.dropWhile pyWS with
  | nil =>
    rw [hB] at h
    simp at h
  | cons b bs =>
    rw [hB] at h
    simp only [List.head?_cons, Option.some.injEq] at h
    rw [← h]
    exact dropWhile_head_false pyWS _ b bs hB

theorem pyStrip_idem (l : List Char) : pyStrip (pyStrip l) = pyStrip l := by
  apply pyStrip_eq_self
  · intro c t h
    exact pyStrip_head_false l c t h
  · intro c h
    exact pyStrip_last_false l c h

theorem extract_eq_none (content : List Char) (hcap : rtfCapture content = none) :
    extract_csv_from_rtf content = [] := by
  unfold extract_csv_from_rtf
  rw [hcap]

theorem extract_eq_some (content cap : List Char) (hcap : rtfCapture content = some cap) :
    extract_csv_from_rtf content
      = ((splitOn '\n' (pyStrip
            ((cap.map (fun ch => if ch = '\\' then '\n' else ch)).filter
              (fun ch => ch ≠ '\x7b' && ch ≠ '\x7d')))).map pyStrip).filter
          (fun l => l ≠ []) := by
  unfold extract_csv_from_rtf
  rw [hcap]

/-- Claim C9: every line returned by the recovery function is non-empty,
equal to its own stripped form, and contains no brace characters and no
newline characters, on every input. -/
theorem C9_theorem (content : List Char) (l : List Char)
    (h : l ∈ extract_csv_from_rtf content) :
    l ≠ [] ∧ pyStrip l = l ∧ '\x7b' ∉ l ∧ '\x7d' ∉ l ∧ '\n' ∉ l := by
  cases hcap : rtfCapture content with
  | none =>
    rw [extract_eq_none content hcap] at h
    simp at h
  | some cap =>
    rw [extract_eq_some content cap hcap] at h
    rw [List.mem_filter] at h
    obtain ⟨hmem, hne⟩ := h
    obtain ⟨piece, hpiece, hl⟩ := List.mem_map.mp hmem
    subst hl
    have hchain : ∀ c ∈ pyStrip piece, c ≠ '\x7b' ∧ c ≠ '\x7d' ∧ c ≠ '\n' := by
      intro c hc
      have hc1 := mem_pyStrip piece c hc
      obtain ⟨hc2, hcn⟩ := mem_splitOn_subset '\n' _ piece hpiece c hc1
      have hc3 := mem_pyStrip _ c hc2
      rw [List.mem_filter] at hc3
      have hbr := hc3.2
      simp only [Bool.and_eq_true, decide_eq_true_eq] at hbr
      exact ⟨hbr.1, hbr.2, hcn⟩
    refine ⟨by simpa using hne, pyStrip_idem piece, ?_, ?_, ?_⟩
    · intro hc
      exact (hchain _ hc).1 rfl
    · intro hc
      exact (hchain _ hc).2.1 rfl
    · intro hc
      exact (hchain _ hc).2.2 rfl

/-- Claim C9 witness: the theorem applied to a wrapped two-line payload and
the first recovered line. -/
theorem C9_witness :
    ("h1,h2".toList : List Char) ≠ [] ∧ pyStrip ("h1,h2".toList) = "h1,h2".toList ∧
    '\x7b' ∉ ("h1,h2".toList : List Char) ∧ '\x7d' ∉ ("h1,h2".toList : List Char) ∧
    '\n' ∉ ("h1,h2".toList : List Char) :=
  C9_theorem (rtfWrap ("h1,h2\nx,y".toList)) ("h1,h2".toList) (by decide)

/-- Claim C8: when the marker never appears the recovery function returns
the empty sequence (it is a total function — no exception); and the
recovered lines depend only on the first marked run — everything after the
run's closing brace, later runs included, is ignored. -/
theorem C8_theorem :
    (∀ content : List Char, occursIn rtfMarker content = false →
      extract_csv_from_rtf content = []) ∧
    (∀ (pre r1 rest : List Char), '\\' ∉ pre → r1 ≠ [] → '\x7d' ∉ r1 →
      extract_csv_from_rtf (pre ++ rtfMarker ++ r1 ++ '\x7d' :: rest)
        = extract_csv_from_rtf (pre ++ rtfMarker ++ r1 ++ ['\x7d'])) := by
  have hm : rtfMarker = '\\' :: ("strokec2 ".toList) := rfl
  constructor
  · intro content h
    apply extract_eq_none
    unfold rtfCapture
    rw [afterFirstMarker_none rtfMarker content h]
  · intro pre r1 rest hpre hr1ne hr1b
    have hcap : ∀ tail : List Char,
        rtfCapture (pre ++ rtfMarker ++ r1 ++ '\x7d' :: tail) = some r1 := by
      intro tail
      unfold rtfCapture
      have hassoc : pre ++ rtfMarker ++ r1 ++ '\x7d' :: tail
          = pre ++ (rtfMarker ++ (r1 ++ '\x7d' :: tail)) := by
        simp [List.append_assoc]
      rw [hassoc, hm]
      rw [afterFirstMarker_skip '\\' ("strokec2 ".toList) pre _ hpre]
      rw [afterFirstMarker_at '\\' ("strokec2 ".toList) (r1 ++ '\x7d' :: tail)]
      cases r1 with
      | nil => exact absurd rfl hr1ne
      | cons a r1tl =>
        rw [List.cons_append]
        show (beforeBrace (r1tl ++ '\x7d' :: tail)).map (fun p => a :: p) = some (a :: r1tl)
        rw [beforeBrace_append r1tl tail (fun hmem => hr1b (List.mem_cons_of_mem _ hmem))]
        rfl
    rw [extract_eq_some _ r1 (hcap rest), extract_eq_some _ r1 (hcap [])]

/-- Claim C8 witness: a document with no marker recovers nothing, and a
document with two marked runs recovers exactly what the document truncated
after the first run recovers. -/
theorem C8_witness :
    extract_csv_from_rtf ("no marker here".toList) = [] ∧
    extract_csv_from_rtf (("pre ".toList) ++ rtfMarker ++ ("a,b".toList)
        ++ '\x7d' :: (" junk ".toList ++ rtfMarker ++ ("c,d".toList) ++ ['\x7d']))
      = extract_csv_from_rtf (("pre ".toList) ++ rtfMarker ++ ("a,b".toList) ++ ['\x7d']) :=
  ⟨C8_theorem.1 ("no marker here".toList) (by decide),
   C8_theorem.2 ("pre ".toList) ("a,b".toList)
     (" junk ".toList ++ rtfMarker ++ ("c,d".toList) ++ ['\x7d'])
     (by decide) (by decide) (by decide)⟩

theorem head?_joinSep (sep l : List Char) (ls : List (List Char))
    (h : l ≠ []) : (joinSep sep (l :: ls)).head? = l.head? := by
  cases ls with
  | nil => rfl
  | cons y r =>
    rw [joinSep_cons_cons, List.head?_append, List.head?_append]
    cases l with
    | nil => exact absurd rfl h
    | cons a t => rfl

theorem getLast?_joinSep (sep : List Char) :
    ∀ (ls : List (List Char)) (llast : List Char),
      ls.getLast? = some llast → (∀ x ∈ ls, x ≠ []) →
      (joinSep sep ls).getLast? = llast.getLast? := by
  intro ls
  induction ls with
  | nil =>
    intro llast h _
    simp at h
  | cons x ys ih =>
    intro llast h hne
    cases ys with
    | nil =>
      simp only [List.getLast?_singleton, Option.some.injEq] at h
      subst h
      rfl
    | cons y r =>
      rw [List.getLast?_cons_cons] at h
      have hIH := ih llast h (fun z hz => hne z (List.mem_cons_of_mem _ hz))
      rw [joinSep_cons_cons, List.getLast?_append, hIH]
      have hlmem : llast ∈ y :: r := by
        obtain ⟨hex, heq⟩ := List.mem_getLast?_eq_getLast (l := y :: r) (x := llast) h
        rw [heq]
        exact List.getLast_mem hex
      have hlne := hne llast (List.mem_cons_of_mem _ hlmem)
      cases hll : llast.getLast? with
      | none => exact absurd (List.getLast?_eq_none_iff.mp hll) hlne
      | some z => rfl

theorem map_eq_self_of {α : Type} (f : α → α) (l : List α) (h : ∀ c ∈ l, f c = c) :
    l.map f = l := by
  induction l with
  | nil => rfl
  | cons c t ih =>
    rw [List.map_cons, h c (by simp), ih (fun x hx => h x (List.mem_cons_of_mem _ hx))]

theorem extract_rtfWrap (payload : List Char)
    (hbs : '\\' ∉ payload) (hob : '\x7b' ∉ payload) (hcb : '\x7d' ∉ payload)
    (hlines : ∀ piece ∈ splitOn '\n' payload, piece ≠ [] ∧ pyStrip piece = piece) :
    extract_csv_from_rtf (rtfWrap payload) = splitOn '\n' payload := by
  have hpne : payload ≠ [] := by
    intro h
    subst h
    exact (hlines [] (by simp [splitOn])).1 rfl
  have hescmem : ∀ c ∈ payload.map (fun ch => if ch = '\n' then '\\' else ch),
      c = '\\' ∨ (c ∈ payload ∧ c ≠ '\n') := by
    intro c hc
    obtain ⟨o, ho, heq⟩ := List.mem_map.mp hc
    by_cases hon : o = '\n'
    · rw [hon] at heq
      simp at heq
      exact Or.inl heq.symm
    · rw [if_neg hon] at heq
      subst heq
      exact Or.inr ⟨ho, hon⟩
  have hcap : rtfCapture (rtfWrap payload)
      = some (payload.map (fun ch => if ch = '\n' then '\\' else ch)) := by
    unfold rtfCapture rtfWrap
    have hassoc : rtfMarker ++ payload.map (fun ch => if ch = '\n' then '\\' else ch) ++ ['\x7d']
        = rtfMarker ++ (payload.map (fun ch => if ch = '\n' then '\\' else ch) ++ ['\x7d']) := by
      simp [List.append_assoc]
    rw [hassoc, show rtfMarker = '\\' :: ("strokec2 ".toList) from rfl]
    rw [afterFirstMarker_at '\\' ("strokec2 ".toList) _]
    cases hX : payload.map (fun ch => if ch = '\n' then '\\' else ch) with
    | nil => exact absurd (List.map_eq_nil_iff.mp hX) hpne
    | cons e Xtl =>
      rw [List.cons_append]
      show (beforeBrace (Xtl ++ '\x7d' :: [])).map (fun p => e :: p) = some (e :: Xtl)
      rw [beforeBrace_append Xtl []]
      · rfl
      · intro hmem
        have : '\x7d' ∈ payload.map (fun ch => if ch = '\n' then '\\' else ch) := by
          rw [hX]
          exact List.mem_cons_of_mem _ hmem
        rcases hescmem _ this with h | h
        · exact absurd h (by decide)
        · exact hcb h.1
  rw [extract_eq_some _ _ hcap]
  have hunesc : (payload.map (fun ch => if ch = '\n' then '\\' else ch)).map
      (fun ch => if ch = '\\' then '\n' else ch) = payload := by
    rw [List.map_map]
    apply map_eq_self_of
    intro c hc
    by_cases hcn : c = '\n'
    · rw [hcn]
      rfl
    · show (if (if c = '\n' then '\\' else c) = '\\' then '\n' else (if c = '\n' then '\\' else c)) = c
      rw [if_neg hcn, if_neg (show ¬c = '\\' from fun h => hbs (by rw [← h]; exact hc))]
  rw [hunesc]
  have hfilter : payload.filter (fun ch => ch ≠ '\x7b' && ch ≠ '\x7d') = payload := by
    rw [List.filter_eq_self]
    intro a ha
    simp only [Bool.and_eq_true, decide_eq_true_eq]
    exact ⟨fun h => hob (h ▸ ha), fun h => hcb (h ▸ ha)⟩
  rw [hfilter]
  have hstrip : pyStrip payload = payload := by
    apply pyStrip_eq_self
    · intro c t hct
      rcases hsplit : splitOn '\n' payload with _ | ⟨L0, Lr⟩
      · exact absurd hsplit (splitOn_ne_nil '\n' payload)
      · have hL0 := hlines L0 (by rw [hsplit]; simp)
        have hjp : joinSep ['\n'] (L0 :: Lr) = payload := by
          rw [← hsplit]
          exact joinSep_splitOn '\n' payload
        have hh : payload.head? = L0.head? := by
          rw [← hjp]
          exact head?_joinSep ['\n'] L0 Lr hL0.1
        rw [hct] at hh
        cases hL0c : L0 with
        | nil => exact absurd hL0c hL0.1
        | cons c0 t0 =>
          rw [hL0c] at hh
          simp only [List.head?_cons, Option.some.injEq] at hh
          rw [hh]
          apply pyStrip_head_false L0 c0 t0
          rw [hL0.2, hL0c]
    · intro c hc
      rcases hsplit : splitOn '\n' payload with _ | ⟨L0, Lr⟩
      · exact absurd hsplit (splitOn_ne_nil '\n' payload)
      · have hjp : joinSep ['\n'] (L0 :: Lr) = payload := by
          rw [← hsplit]
          exact joinSep_splitOn '\n' payload
        rcases hlast : (L0 :: Lr).getLast? with _ | llast
        · simp at hlast
        · have hgl : payload.getLast? = llast.getLast? := by
            rw [← hjp]
            exact getLast?_joinSep ['\n'] (L0 :: Lr) llast hlast
              (fun x hx => (hlines x (by rw [hsplit]; exact hx)).1)
          rw [hc] at hgl
          have hllmem : llast ∈ L0 :: Lr := by
            obtain ⟨hex, heq⟩ := List.mem_getLast?_eq_getLast (l := L0 :: Lr) (x := llast) hlast
            rw [heq]
            exact List.getLast_mem hex
          have hll := hlines llast (by rw [hsplit]; exact hllmem)
          apply pyStrip_last_false llast c
          rw [hll.2]
          exact hgl.symm
  rw [hstrip]
  have hmapstrip : (splitOn '\n' payload).map pyStrip = splitOn '\n' payload := by
    have := List.map_congr_left (l := splitOn '\n' payload) (f := pyStrip) (g := id)
      (fun a ha => (hlines a ha).2)
    rw [this, List.map_id]
  rw [hmapstrip]
  rw [List.filter_eq_self]
  intro a ha
  simp only [ne_eq, decide_not, Bool.not_eq_true', decide_eq_false_iff_not]
  exact (hlines a ha).1

theorem dictRowsClean_eq_raw (lines : List (List Char))
    (h : ∀ hdr rest, lines = hdr :: rest → '\ufeff' ∉ hdr) :
    dictRowsClean lines = dictRowsRaw lines := by
  cases lines with
  | nil => rfl
  | cons hdr rest =>
    have hnames : (splitOn ',' hdr).map lstripBOM = splitOn ',' hdr := by
      apply map_eq_self_of
      intro name hn
      unfold lstripBOM
      apply dropWhile_eq_self_head
      intro c t hct
      have hcmem : c ∈ name := by rw [hct]; simp
      obtain ⟨hcl, _⟩ := mem_splitOn_subset ',' hdr name hn c hcmem
      simp only [decide_eq_false_iff_not]
      intro he
      exact h hdr rest rfl (by rw [← he]; exact hcl)
    show (rest.filter (fun l => l ≠ [])).map
        (fun l => List.zip ((splitOn ',' hdr).map lstripBOM) (splitOn ',' l))
      = (rest.filter (fun l => l ≠ [])).map
        (fun l => List.zip (splitOn ',' hdr) (splitOn ',' l))
    rw [hnames]

/-- Claim C4 (amended): for a delimited payload free of backslashes, brace
characters, carriage returns and byte-order marks, whose lines are all
non-empty and free of leading and trailing whitespace, wrapping it in the
rich-text container's escaping rules and recovering it through the
extraction path, then parsing with the dictionary-row reader, yields
exactly the row sequence of parsing the unwrapped plain payload
directly. -/
theorem C4_theorem (payload : List Char)
    (hbs : '\\' ∉ payload) (hob : '\x7b' ∉ payload) (hcb : '\x7d' ∉ payload)
    (_hcr : '\r' ∉ payload) (hbom : '\ufeff' ∉ payload)
    (hlines : ∀ piece ∈ splitOn '\n' payload, piece ≠ [] ∧ pyStrip piece = piece) :
    rtfParse (rtfWrap payload) = plainParse payload := by
  unfold rtfParse plainParse
  rw [extract_rtfWrap payload hbs hob hcb hlines]
  have hsb : stripBOM1 payload = payload := by
    cases payload with
    | nil => rfl
    | cons c rest =>
      show (if c = '\ufeff' then rest else c :: rest) = c :: rest
      rw [if_neg (fun h => hbom (by rw [← h]; simp))]
  rw [hsb]
  rw [dictRowsClean_eq_raw]
  intro hdr rest hsplit hbommem
  have hsub := mem_splitOn_subset '\n' payload hdr (by rw [hsplit]; simp) '\ufeff' hbommem
  exact hbom hsub.1

/-- Claim C4 witness: the amended theorem applied to a clean two-line
comma-delimited payload. -/
theorem C4_witness :
    rtfParse (rtfWrap ("h1,h2\nx,y".toList)) = plainParse ("h1,h2\nx,y".toList) :=
  C4_theorem ("h1,h2\nx,y".toList)
    (by decide) (by decide) (by decide) (by decide) (by decide) (by decide)

/-- Claim C4 counterexample: a payload starting with a byte-order mark —
the plain path strips it from the header name, the rich-text path does
not, so the recovered row keys differ. -/
theorem C4_counterexample :
    rtfParse (rtfWrap ('\ufeff' :: ("h\nx".toList)))
      = [[(('\ufeff' :: ("h".toList)), ("x".toList))]] ∧
    plainParse ('\ufeff' :: ("h\nx".toList)) = [[(("h".toList), ("x".toList))]] ∧
    ([[(('\ufeff' :: ("h".toList)), ("x".toList))]] : List Row)
      ≠ [[(("h".toList), ("x".toList))]] := by
  exact ⟨by decide, by decide, by decide⟩
